import Mathlib

/-!
Verification of the CUDA inference core of `calm` (`src/infer.cu`, `src/model.h`)
against its natural-language specification.

The development is a shallow embedding: the device kernels and the two forward
drivers of `src/infer.cu` are translated into Lean functions over the reals
(floating-point arithmetic is modelled by exact real arithmetic; all
quantization/dequantization of weights and the KV cache is modelled as the
identity, i.e. weights and cached values are carried as reals).  Buffers are
modelled as total functions `ℕ → ℝ`; each kernel is modelled as a function
that overwrites exactly the index region the kernel writes and leaves every
other index at its previous value.

Warp/block primitives (`matmul_warppar`, `warpreduce_sum`, `blockreduce_sum`,
`warpreduce_max`, `blockreduce_max`, `warpreduce_maxi`, `gf4_ff`,
`fp8x4_e5m2_ff`) live in `helpers.cuh`, which is not part of the sources at
hand; they are modelled from the spec where first used.
-/

namespace Calm

/-- Model architectures (`model.h`, `enum Arch`). -/
inductive Arch where
  | LlamaLike
  | Qwen
  | Phi
  | Mixtral
  | Olmo
  | Gemma
deriving DecidableEq, Repr

/-- `model.h`: `#define KV_SINKS 2` — number of attention-sink positions. -/
def KV_SINKS : ℕ := 2

/-- `model.h`: `struct Config` (fields the kernels read).  `rope_theta` is kept
as a real; the drivers pass `log2(rope_theta)` to the kernels, modelled by
`Real.logb 2 rope_theta`.  Positions and dimensions are `ℕ`: the C code uses
nonnegative `int` values throughout (negative `pos` is rejected before the
computation starts, see the C9 section). -/
structure Config where
  arch : Arch
  dim : ℕ
  hidden_dim : ℕ
  head_dim : ℕ
  n_layers : ℕ
  n_heads : ℕ
  n_kv_heads : ℕ
  vocab_size : ℕ
  seq_len : ℕ
  rope_theta : ℝ
  rotary_dim : ℕ
  n_experts : ℕ
  n_experts_ac : ℕ
  norm_eps : ℝ
  embed_scale : ℝ

/-- `infer.cu`, `forward`, line 643:
`int kv_sink = pos >= p->seq_len ? KV_SINKS : 0;` -/
def kv_sink (cfg : Config) (pos : ℕ) : ℕ :=
  if cfg.seq_len ≤ pos then KV_SINKS else 0

/-- `infer.cu`, `forward`, line 644:
`int kv_pos = kv_sink + (pos - kv_sink) % (p->seq_len - kv_sink);`
(all operands are nonnegative ints, so C `%` agrees with `Nat.mod`). -/
def kv_pos (cfg : Config) (pos : ℕ) : ℕ :=
  kv_sink cfg pos + (pos - kv_sink cfg pos) % (cfg.seq_len - kv_sink cfg pos)

/-- `infer.cu`, `forward`, line 645:
`int kv_len = pos >= p->seq_len ? p->seq_len : pos + 1;` -/
def kv_len (cfg : Config) (pos : ℕ) : ℕ :=
  if cfg.seq_len ≤ pos then cfg.seq_len else pos + 1

/-- C1.  KV-cache wrap: for every forward call (with a sequence length large
enough for the sink mechanism, `Smax > 2`), the physical KV write index
`kv_pos` equals `pos` when `pos < Smax`, equals `2 + (pos − 2) % (Smax − 2)`
when `pos ≥ Smax`, and `kv_len = min (pos+1) Smax`; consequently for every
call with `pos ≥ Smax` the sink positions 0 and 1 are never chosen as the
write index. -/
theorem c1_kv_cache_wrap (cfg : Calm.Config) (pos : ℕ) (hs : 2 < cfg.seq_len) :
    (pos < cfg.seq_len → Calm.kv_pos cfg pos = pos) ∧
    (cfg.seq_len ≤ pos →
      Calm.kv_pos cfg pos = 2 + (pos - 2) % (cfg.seq_len - 2) ∧
      Calm.kv_pos cfg pos ≠ 0 ∧ Calm.kv_pos cfg pos ≠ 1) ∧
    Calm.kv_len cfg pos = min (pos + 1) cfg.seq_len := by
  refine ⟨?_, ?_, ?_⟩
  · intro h
    have hnot : ¬ cfg.seq_len ≤ pos := not_le.mpr h
    simp only [Calm.kv_pos, Calm.kv_sink, hnot, if_false]
    simpa using Nat.mod_eq_of_lt h
  · intro h
    have heq : Calm.kv_pos cfg pos = 2 + (pos - 2) % (cfg.seq_len - 2) := by
      simp [Calm.kv_pos, Calm.kv_sink, Calm.KV_SINKS, if_pos h]
    refine ⟨heq, ?_, ?_⟩ <;> rw [heq] <;> omega
  · simp only [Calm.kv_len]
    split <;> omega

/-- Witness for C1 at a concrete input: `Smax = 8`, `pos = 10` gives
`kv_pos = 2 + 8 % 6 = 4`. -/
theorem c1_kv_cache_wrap_witness :
    (2 : ℕ) < (8 : ℕ) ∧
    ((10 < 8 → Calm.kv_pos ⟨Calm.Arch.LlamaLike, 0, 0, 0, 0, 0, 0, 0, 8, 0, 0, 0, 0, 0, 0⟩ 10 = 10) ∧
     (8 ≤ 10 →
       Calm.kv_pos ⟨Calm.Arch.LlamaLike, 0, 0, 0, 0, 0, 0, 0, 8, 0, 0, 0, 0, 0, 0⟩ 10 = 2 + (10 - 2) % (8 - 2) ∧
       Calm.kv_pos ⟨Calm.Arch.LlamaLike, 0, 0, 0, 0, 0, 0, 0, 8, 0, 0, 0, 0, 0, 0⟩ 10 ≠ 0 ∧
       Calm.kv_pos ⟨Calm.Arch.LlamaLike, 0, 0, 0, 0, 0, 0, 0, 8, 0, 0, 0, 0, 0, 0⟩ 10 ≠ 1) ∧
     Calm.kv_len ⟨Calm.Arch.LlamaLike, 0, 0, 0, 0, 0, 0, 0, 8, 0, 0, 0, 0, 0, 0⟩ 10 = min (10 + 1) 8) :=
  ⟨by decide, c1_kv_cache_wrap ⟨Calm.Arch.LlamaLike, 0, 0, 0, 0, 0, 0, 0, 8, 0, 0, 0, 0, 0, 0⟩ 10 (by decide)⟩

/-! ## Numeric kernel primitives (`src/infer.cu`), over exact reals -/

/-- Modelled from the spec: `matmul_warppar` lives in `helpers.cuh` (not among
the sources); the spec defines the warp-parallel matrix-vector multiply as
`y[i] = Σⱼ W[i,j]·x[j]`, one warp per output row with per-element inline
dequantization and a warp-sum reduction.  Weights are modelled as
already-dequantized reals stored row-major: `W[i,j] = w (i*n + j)`.
Argument order follows the CUDA signature `matmul_warppar(x, w, i, n)`. -/
noncomputable def matmul_warppar (x w : ℕ → ℝ) (i n : ℕ) : ℝ :=
  ∑ j ∈ Finset.range n, w (i * n + j) * x j

/-- CUDA `rsqrtf`. -/
noncomputable def rsqrt (x : ℝ) : ℝ := (Real.sqrt x)⁻¹

/-- The scale computed by `kernel_rmsnorm` (infer.cu 167-192) and by the
device function `rmsnorm` of the cooperative path (infer.cu 854-871):
`rsqrtf(ss / size + eps)` where `ss = Σ x[j]²` over `j < size`. -/
noncomputable def rms_scale (x : ℕ → ℝ) (size : ℕ) (eps : ℝ) : ℝ :=
  rsqrt ((∑ j ∈ Finset.range size, x j * x j) / size + eps)

/-- `kernel_rmsnorm` (infer.cu 167-192): `o[j] = x[j]·weight[j]·scale` for
`j < size`, other indices untouched. -/
noncomputable def kernel_rmsnorm (o x w : ℕ → ℝ) (size : ℕ) (eps : ℝ) : ℕ → ℝ :=
  fun j => if j < size then x j * w j * rms_scale x size eps else o j

/-- `kernel_layernorm` (infer.cu 194-230).  With an accumulator present the
kernel first adds `acc` into `x` in place (`x[j] += acc[j]`); it then
normalizes using the shifted estimator `K = x[0] + acc[0]`.  Returns the pair
(output buffer, updated `x` buffer); both are changed only below `size`. -/
noncomputable def kernel_layernorm (o x : ℕ → ℝ) (acc : Option (ℕ → ℝ)) (w : ℕ → ℝ)
    (size : ℕ) (eps : ℝ) : (ℕ → ℝ) × (ℕ → ℝ) :=
  let xv : ℕ → ℝ := fun j => x j + (match acc with | some a => a j | none => 0)
  let K := xv 0
  let sum := ∑ j ∈ Finset.range size, (xv j - K)
  let ss := ∑ j ∈ Finset.range size, (xv j - K) * (xv j - K)
  let rsize : ℝ := (size : ℝ)⁻¹
  let mean := sum * rsize + K
  let var := (ss - sum * sum * rsize) * rsize
  let scale := rsqrt (var + eps)
  (fun j => if j < size then (xv j - mean) * scale * w j else o j,
   fun j => if j < size then xv j else x j)

/-- `silu` (infer.cu 146-148): `x / (1 + e^{−x})`. -/
noncomputable def silu (x : ℝ) : ℝ := x / (1 + Real.exp (-x))

/-- `gelu` (infer.cu 142-144): tanh approximation
`0.5·x·(1 + tanh(0.797885·(x + 0.044715·x³)))`. -/
noncomputable def gelu (x : ℝ) : ℝ :=
  0.5 * x * (1 + Real.tanh (0.797885 * (x + 0.044715 * x * x * x)))

/-- CUDA `exp2f` on reals: `2^x`. -/
noncomputable def exp2R (x : ℝ) : ℝ := (2 : ℝ) ^ x

/-- The rotary frequency of `kernel_matmul_rope_qkv` (infer.cu 257-258),
`kernel_rotate_sink` (604-605) and `kernel_fused_coop` (921-922):
`freq = j_head >= rotary_dim ? 0 : exp2f(-theta_log2 * j_head / rotary_dim)`. -/
noncomputable def rope_freq (theta_log2 : ℝ) (j_head rotary_dim : ℕ) : ℝ :=
  if rotary_dim ≤ j_head then 0 else exp2R (-theta_log2 * j_head / rotary_dim)

/-- The RoPE rotation of a pair of adjacent elements by angle `ang`
(`sincosf(ang, &fci, &fcr)` gives `fci = sin ang`, `fcr = cos ang`;
`r0 = v0·fcr − v1·fci`, `r1 = v0·fci + v1·fcr`). -/
noncomputable def rope_rotate (v0 v1 ang : ℝ) : ℝ × ℝ :=
  (v0 * Real.cos ang - v1 * Real.sin ang, v0 * Real.sin ang + v1 * Real.cos ang)

/-- One output row of the fused QKV matmul before rotation
(infer.cu 262-270): the warp-parallel matmul against the normalized input
plus the optional bias. -/
noncomputable def qkv_val (x w : ℕ → ℝ) (b : Option (ℕ → ℝ)) (n j : ℕ) : ℝ :=
  matmul_warppar x w j n + (match b with | some bf => bf j | none => 0)

/-- `kernel_matmul_rope_qkv`, Q part (infer.cu 277-285): the kernel processes
pairs of adjacent output elements; for an element index `e` with (even) pair
base `j = 2·(e/2)`, the pair `(v0, v1)` of matmul-plus-bias values is rotated
by angle `pos · freq(j % head_dim)` and stored into `q[j]`, `q[j+1]`.
The result is the new `q` buffer (written on `[0, d)`). -/
noncomputable def qkv_q (q x wq : ℕ → ℝ) (bq : Option (ℕ → ℝ))
    (n d head_dim rotary_dim pos : ℕ) (theta_log2 : ℝ) : ℕ → ℝ :=
  fun e =>
    if e < d then
      let j := 2 * (e / 2)
      let ang := (pos : ℝ) * rope_freq theta_log2 (j % head_dim) rotary_dim
      let r := rope_rotate (qkv_val x wq bq n j) (qkv_val x wq bq n (j + 1)) ang
      if e % 2 = 0 then r.1 else r.2
    else q e

/-- `kernel_matmul_rope_qkv`, K part (infer.cu 286-295): for every even row
pair `j < kvd` the rotated pair is stored into the key cache at the
transposed offsets `kv_pos·2 + {0,1} + seq_len·j`.  A flat index `idx` with
`idx = seq_len·j + (2·t + b)`, `j` even, `t < seq_len`, `b < 2` holds element
row `j + b` of position `t`; the kernel overwrites exactly the indices with
`t = kv_pos`.  Requires `kv_pos < seq_len` (guaranteed by the driver's
`kv_pos` computation) for the decomposition to match the writes. -/
noncomputable def qkv_key_cache (kc x wk : ℕ → ℝ) (bk : Option (ℕ → ℝ))
    (n kvd head_dim rotary_dim seq_len pos kv_posa : ℕ) (theta_log2 : ℝ) : ℕ → ℝ :=
  fun idx =>
    let j := 2 * (idx / (2 * seq_len))
    let off := idx % (2 * seq_len)
    if j < kvd ∧ off / 2 = kv_posa then
      let ang := (pos : ℝ) * rope_freq theta_log2 (j % head_dim) rotary_dim
      let r := rope_rotate (qkv_val x wk bk n j) (qkv_val x wk bk n (j + 1)) ang
      if off % 2 = 0 then r.1 else r.2
    else kc idx

/-- `kernel_matmul_rope_qkv`, V part (infer.cu 296-304): value rows are *not*
rotated; row `r`'s value for the current position is stored at the transposed
offset `kv_pos + seq_len·r`.  A flat index `idx = seq_len·r + t` holds row `r`
at position `t`; the kernel overwrites exactly `t = kv_pos` for `r < kvd`.
Requires `kv_pos < seq_len`. -/
noncomputable def qkv_value_cache (vc x wv : ℕ → ℝ) (bv : Option (ℕ → ℝ))
    (n kvd seq_len kv_posa : ℕ) : ℕ → ℝ :=
  fun idx =>
    let r := idx / seq_len
    let t := idx % seq_len
    if r < kvd ∧ t = kv_posa then qkv_val x wv bv n r else vc idx

/-- Reading the transposed key cache (layout of infer.cu 293-295): the flat
index `seq_len·(r − r%2) + 2·t + (r%2)` holds element row `r` of position
`t`. `attn_score2` (infer.cu 483-500) loads exactly these locations. -/
noncomputable def key_at (kc : ℕ → ℝ) (seq_len r t : ℕ) : ℝ :=
  kc (seq_len * (r - r % 2) + 2 * t + r % 2)

/-- The attention score of query head `h` against key head `kvh` at position
`t` (device `attn_score2`, infer.cu 483-500, including the kernel-side head
indexing of `kernel_attn_score`, infer.cu 532-551):
`(qₕ · kₖᵥₕ(t)) / √head_dim`. -/
noncomputable def attn_score (q kc : ℕ → ℝ) (head_dim seq_len h kvh t : ℕ) : ℝ :=
  (∑ j ∈ Finset.range head_dim,
    q (h * head_dim + j) * key_at kc seq_len (kvh * head_dim + j) t) / Real.sqrt head_dim

/-- `kernel_attn_score` (infer.cu 532-551): for every head `h < n_heads` the
kernel writes scores at even positions `t < kv_len` and their successors
`t+1`, i.e. on `[0, 2·⌈kv_len/2⌉)`; the grouped-query key head is `h / kv_mul`.
The `att` buffer is laid out with stride `seq_len` per head. -/
noncomputable def att_after_score (att q kc : ℕ → ℝ)
    (n_heads head_dim seq_len kv_mul kv_lena : ℕ) : ℕ → ℝ :=
  fun idx =>
    let h := idx / seq_len
    let t := idx % seq_len
    if h < n_heads ∧ t < 2 * ((kv_lena + 1) / 2) then
      attn_score q kc head_dim seq_len h (h / kv_mul) t
    else att idx

/-- CUDA `FLT_MAX` (the float kernels initialize max reductions with
`-FLT_MAX`). -/
noncomputable def FLT_MAX : ℝ := 3.4028234663852886e38

/-- The block max reduction of `kernel_attn_softmax` (infer.cu 561-568) /
device `softmax` (infer.cu 839-846): a fold of `max` over the first `n`
entries starting from `-FLT_MAX`. -/
noncomputable def fold_max (f : ℕ → ℝ) (n : ℕ) : ℝ :=
  ((List.range n).map f).foldl max (-FLT_MAX)

/-- `kernel_attn_softmax` (infer.cu 553-574) / device `softmax`
(infer.cu 836-852): in place, per head `h < n_heads`, over `[0, kv_len)`:
subtract the per-head max and exponentiate.  No normalization happens here. -/
noncomputable def att_after_softmax (att : ℕ → ℝ) (n_heads seq_len kv_lena : ℕ) : ℕ → ℝ :=
  fun idx =>
    let h := idx / seq_len
    let t := idx % seq_len
    if h < n_heads ∧ t < kv_lena then
      Real.exp (att idx - fold_max (fun j => att (h * seq_len + j)) kv_lena)
    else att idx

/-- `attn_warpdot` (infer.cu 502-529): the weighted sum of the first `kv_len`
value entries divided by the sum of the first `kv_len` attention entries (the
vectorized body and the tail sum exactly these terms; warp reductions are
modelled as the mathematical sums). -/
noncomputable def attn_warpdot (vals atth : ℕ → ℝ) (kv_lena : ℕ) : ℝ :=
  (∑ t ∈ Finset.range kv_lena, vals t * atth t) / (∑ t ∈ Finset.range kv_lena, atth t)

/-- `kernel_attn_mix` (infer.cu 576-595): for every output element
`e = h·head_dim + i < n_heads·head_dim` the mixed value `attn_warpdot` of the
value-cache row `(h/kv_mul)·head_dim + i` (transposed layout: position `t` of
row `r` lives at flat index `seq_len·r + t`) against head `h`'s attention row
is written into `q[e]`.  (The cooperative path's mix loop, infer.cu 976-990,
covers the same range with the same indexing.) -/
noncomputable def q_after_mix (q att vc : ℕ → ℝ)
    (n_heads head_dim seq_len kv_mul kv_lena : ℕ) : ℕ → ℝ :=
  fun e =>
    if e < n_heads * head_dim then
      let h := e / head_dim
      let i := e % head_dim
      attn_warpdot (fun t => vc (seq_len * ((h / kv_mul) * head_dim + i) + t))
        (fun t => att (h * seq_len + t)) kv_lena
    else q e

/-- `kernel_rotate_sink` (infer.cu 597-626): for every even element-row pair
`r < kvd` and every sink position `t < kv_sink`, the cached key pair at flat
offsets `t·2 + seq_len·r + {0,1}` is rotated forward by the angle
`freq(r % head_dim)` (one position's worth of rotary frequency; the kernel
computes `sincosf(freq, ...)`, i.e. `pos = 1`).  A flat index decomposes as
`idx = 2·seq_len·r2 + off` with `r = 2·r2`, `t = off/2`, `b = off%2`.
Requires `kv_sink ≤ seq_len` and `head_dim ∣ kvd` (both hold at every call
site: `kvd = head_dim·n_kv_heads` and `kv_sink = 2 ≤ seq_len`). -/
noncomputable def rotate_sink_cache (kc : ℕ → ℝ)
    (kvd head_dim kv_sinka seq_len rotary_dim : ℕ) (theta_log2 : ℝ) : ℕ → ℝ :=
  fun idx =>
    let r2 := idx / (2 * seq_len)
    let off := idx % (2 * seq_len)
    let t := off / 2
    if 2 * r2 < kvd ∧ t < kv_sinka then
      let ang := rope_freq theta_log2 ((2 * r2) % head_dim) rotary_dim
      let k0 := kc (2 * seq_len * r2 + 2 * t)
      let k1 := kc (2 * seq_len * r2 + 2 * t + 1)
      if off % 2 = 0 then (rope_rotate k0 k1 ang).1 else (rope_rotate k0 k1 ang).2
    else kc idx

/-! ## Index arithmetic helpers -/

theorem strided_div (s h t : ℕ) (ht : t < s) : (s * h + t) / s = h := by
  have hs : 0 < s := Nat.pos_of_ne_zero (by omega)
  rw [Nat.mul_add_div hs, Nat.div_eq_of_lt ht, Nat.add_zero]

theorem strided_mod (s h t : ℕ) (ht : t < s) : (s * h + t) % s = t := by
  rw [Nat.mul_add_mod, Nat.mod_eq_of_lt ht]

theorem pair_div (s j off : ℕ) (hj : j % 2 = 0) (hoff : off < 2 * s) :
    (s * j + off) / (2 * s) = j / 2 := by
  obtain ⟨m, rfl⟩ := (Nat.even_iff.mpr hj)
  have hs : 0 < 2 * s := by omega
  have : s * (m + m) + off = (2 * s) * m + off := by ring_nf
  rw [this, Nat.mul_add_div hs, Nat.div_eq_of_lt hoff, Nat.add_zero]
  omega

theorem pair_mod (s j off : ℕ) (hj : j % 2 = 0) (hoff : off < 2 * s) :
    (s * j + off) % (2 * s) = off := by
  obtain ⟨m, rfl⟩ := (Nat.even_iff.mpr hj)
  have : s * (m + m) + off = (2 * s) * m + off := by ring_nf
  rw [this, Nat.mul_add_mod, Nat.mod_eq_of_lt hoff]

/-- Pair base of an in-head offset: if `e % head_dim ≥ rotary_dim` with both
`head_dim` and `rotary_dim` even, then the pair base `2·(e/2)` also has
in-head offset `≥ rotary_dim`. -/
theorem pair_base_rotary (e head_dim rotary_dim : ℕ)
    (hhd : head_dim % 2 = 0) (hrd : rotary_dim % 2 = 0) (hhd0 : 0 < head_dim)
    (h : rotary_dim ≤ e % head_dim) : rotary_dim ≤ (2 * (e / 2)) % head_dim := by
  obtain ⟨a, rfl⟩ := (Nat.even_iff.mpr hhd)
  obtain ⟨b, rfl⟩ := (Nat.even_iff.mpr hrd)
  have ha : 0 < a := by omega
  have h1 : (2 * (e / 2)) % (a + a) = 2 * ((e / 2) % a) := by
    have : a + a = 2 * a := by ring
    rw [this, Nat.mul_mod_mul_left]
  have h2 : (e / 2) % a = e % (2 * a) / 2 := (Nat.mod_mul_right_div_self e 2 a).symm
  have h3 : e % (a + a) = e % (2 * a) := by congr 1; ring
  rw [h1, h2]
  rw [h3] at h
  generalize e % (2 * a) = m at h ⊢
  omega

/-! ## C3: rotary identity -/

theorem rope_rotate_zero (v0 v1 : ℝ) : rope_rotate v0 v1 0 = (v0, v1) := by
  simp [rope_rotate]

/-- Read-back of the key-cache write of `kernel_matmul_rope_qkv`:
the value stored at flat index `seq_len·j + 2·kv_pos + b`. -/
theorem qkv_key_cache_at (kc x wk : ℕ → ℝ) (bk : Option (ℕ → ℝ))
    (n kvd head_dim rotary_dim seq_len pos kvp : ℕ) (theta_log2 : ℝ)
    (j b : ℕ) (hj : j % 2 = 0) (hjk : j < kvd) (hb : b < 2) (hkvp : kvp < seq_len) :
    qkv_key_cache kc x wk bk n kvd head_dim rotary_dim seq_len pos kvp theta_log2
      (seq_len * j + 2 * kvp + b) =
    (if b = 0 then
      (rope_rotate (qkv_val x wk bk n j) (qkv_val x wk bk n (j + 1))
        ((pos : ℝ) * rope_freq theta_log2 (j % head_dim) rotary_dim)).1
     else
      (rope_rotate (qkv_val x wk bk n j) (qkv_val x wk bk n (j + 1))
        ((pos : ℝ) * rope_freq theta_log2 (j % head_dim) rotary_dim)).2) := by
  have hoff : 2 * kvp + b < 2 * seq_len := by omega
  have hidx : seq_len * j + 2 * kvp + b = seq_len * j + (2 * kvp + b) := by ring
  have hdiv : (seq_len * j + (2 * kvp + b)) / (2 * seq_len) = j / 2 :=
    pair_div seq_len j (2 * kvp + b) hj hoff
  have hmod : (seq_len * j + (2 * kvp + b)) % (2 * seq_len) = 2 * kvp + b :=
    pair_mod seq_len j (2 * kvp + b) hj hoff
  have hj2 : 2 * ((seq_len * j + (2 * kvp + b)) / (2 * seq_len)) = j := by
    rw [hdiv]; omega
  simp only [qkv_key_cache, hidx, hdiv, hmod]
  have hjj : 2 * (j / 2) = j := by omega
  have hod : (2 * kvp + b) / 2 = kvp := by omega
  have hom : (2 * kvp + b) % 2 = b := by omega
  rw [hjj, hod, hom, if_pos ⟨hjk, rfl⟩]

/-- If the rotation angle of the pair containing output element `e` is zero,
the fused Q output equals the plain projection value. -/
theorem qkv_q_unrotated (q x wq : ℕ → ℝ) (bq : Option (ℕ → ℝ))
    (n d head_dim rotary_dim pos : ℕ) (theta_log2 : ℝ) (e : ℕ) (he : e < d)
    (hang : ((pos : ℝ) * rope_freq theta_log2 (2 * (e / 2) % head_dim) rotary_dim) = 0) :
    qkv_q q x wq bq n d head_dim rotary_dim pos theta_log2 e = qkv_val x wq bq n e := by
  simp only [qkv_q, if_pos he, hang, rope_rotate_zero]
  rcases Nat.even_or_odd e with h2 | h2
  · have h0 : e % 2 = 0 := Nat.even_iff.mp h2
    have he2 : 2 * (e / 2) = e := by omega
    simp [h0, he2]
  · have h1 : e % 2 = 1 := Nat.odd_iff.mp h2
    have he2 : 2 * (e / 2) + 1 = e := by omega
    simp [h1, he2]

/-- If the rotation angle of key row pair `j` is zero, the key-cache write
stores the plain projection values. -/
theorem qkv_key_unrotated (kc x wk : ℕ → ℝ) (bk : Option (ℕ → ℝ))
    (n kvd head_dim rotary_dim seq_len pos kvp : ℕ) (theta_log2 : ℝ)
    (j : ℕ) (hj : j % 2 = 0) (hjk : j < kvd) (hkvp : kvp < seq_len)
    (hang : ((pos : ℝ) * rope_freq theta_log2 (j % head_dim) rotary_dim) = 0) :
    qkv_key_cache kc x wk bk n kvd head_dim rotary_dim seq_len pos kvp theta_log2
        (seq_len * j + 2 * kvp) = qkv_val x wk bk n j ∧
    qkv_key_cache kc x wk bk n kvd head_dim rotary_dim seq_len pos kvp theta_log2
        (seq_len * j + 2 * kvp + 1) = qkv_val x wk bk n (j + 1) := by
  constructor
  · have h := qkv_key_cache_at kc x wk bk n kvd head_dim rotary_dim seq_len pos kvp
      theta_log2 j 0 hj hjk (by omega) hkvp
    rw [Nat.add_zero] at h
    rw [h, if_pos rfl, hang, rope_rotate_zero]
  · have h := qkv_key_cache_at kc x wk bk n kvd head_dim rotary_dim seq_len pos kvp
      theta_log2 j 1 hj hjk (by omega) hkvp
    rw [h, if_neg (by omega), hang, rope_rotate_zero]

/-- C3.  Rotary identity: with `pos = 0` the fused QKV+RoPE step produces
exactly the plain QKV projection values for Q, for the key-cache write and
for the value-cache write; for arbitrary `pos`, every output element whose
in-head offset is `≥ rotary_dim` is left unrotated (with `head_dim` and
`rotary_dim` even, as the pairwise rotation scheme requires); and
value-cache writes are never rotated at any position. -/
theorem c3_rope_identity (q kc vc x wq wk wv : ℕ → ℝ) (bq bk bv : Option (ℕ → ℝ))
    (n d kvd head_dim rotary_dim seq_len pos kvp : ℕ) (theta_log2 : ℝ)
    (hkvp : kvp < seq_len) :
    ((∀ e, e < d →
        qkv_q q x wq bq n d head_dim rotary_dim 0 theta_log2 e = qkv_val x wq bq n e) ∧
     (∀ j, j % 2 = 0 → j < kvd →
        qkv_key_cache kc x wk bk n kvd head_dim rotary_dim seq_len 0 kvp theta_log2
            (seq_len * j + 2 * kvp) = qkv_val x wk bk n j ∧
        qkv_key_cache kc x wk bk n kvd head_dim rotary_dim seq_len 0 kvp theta_log2
            (seq_len * j + 2 * kvp + 1) = qkv_val x wk bk n (j + 1))) ∧
    (head_dim % 2 = 0 → rotary_dim % 2 = 0 → 0 < head_dim →
     (∀ e, e < d → rotary_dim ≤ e % head_dim →
        qkv_q q x wq bq n d head_dim rotary_dim pos theta_log2 e = qkv_val x wq bq n e) ∧
     (∀ j, j % 2 = 0 → j < kvd → rotary_dim ≤ j % head_dim →
        qkv_key_cache kc x wk bk n kvd head_dim rotary_dim seq_len pos kvp theta_log2
            (seq_len * j + 2 * kvp) = qkv_val x wk bk n j ∧
        qkv_key_cache kc x wk bk n kvd head_dim rotary_dim seq_len pos kvp theta_log2
            (seq_len * j + 2 * kvp + 1) = qkv_val x wk bk n (j + 1))) ∧
    (∀ r, r < kvd →
        qkv_value_cache vc x wv bv n kvd seq_len kvp (seq_len * r + kvp) =
          qkv_val x wv bv n r) := by
  refine ⟨⟨?_, ?_⟩, ?_, ?_⟩
  · intro e he
    exact qkv_q_unrotated q x wq bq n d head_dim rotary_dim 0 theta_log2 e he (by simp)
  · intro j hj hjk
    exact qkv_key_unrotated kc x wk bk n kvd head_dim rotary_dim seq_len 0 kvp theta_log2
      j hj hjk hkvp (by simp)
  · intro hhd hrd hhd0
    constructor
    · intro e he hrot
      refine qkv_q_unrotated q x wq bq n d head_dim rotary_dim pos theta_log2 e he ?_
      have : rope_freq theta_log2 (2 * (e / 2) % head_dim) rotary_dim = 0 := by
        simp [rope_freq, if_pos (pair_base_rotary e head_dim rotary_dim hhd hrd hhd0 hrot)]
      rw [this, mul_zero]
    · intro j hj hjk hrot
      refine qkv_key_unrotated kc x wk bk n kvd head_dim rotary_dim seq_len pos kvp
        theta_log2 j hj hjk hkvp ?_
      have : rope_freq theta_log2 (j % head_dim) rotary_dim = 0 := by
        simp [rope_freq, if_pos hrot]
      rw [this, mul_zero]
  · intro r hr
    simp only [qkv_value_cache, strided_div seq_len r kvp hkvp,
      strided_mod seq_len r kvp hkvp]
    rw [if_pos ⟨hr, trivial⟩]

/-- Witness for C3 at concrete inputs (`kvd = 2`, `seq_len = 2`, `kvp = 1`,
zero weights): the value-cache write of row 1 is the plain projection. -/
theorem c3_rope_identity_witness :
    (1 : ℕ) < 2 ∧
    qkv_value_cache (fun _ => (0 : ℝ)) (fun _ => (0 : ℝ)) (fun _ => (0 : ℝ)) none 2 2 2 1
        (2 * 1 + 1) = qkv_val (fun _ => (0 : ℝ)) (fun _ => (0 : ℝ)) none 2 1 :=
  ⟨by decide,
   (c3_rope_identity (fun _ => 0) (fun _ => 0) (fun _ => 0) (fun _ => 0) (fun _ => 0)
      (fun _ => 0) (fun _ => 0) none none none 2 2 2 2 2 2 3 1 0 (by decide)).2.2 1
      (by decide)⟩

/-! ## C2: softmax-mix normalization -/

/-- If the attention buffer holds `exp (a t − M)` on `[0, n)` (for any shift
`M`, in particular the per-head max the softmax kernel subtracts), then
`attn_warpdot` computes the softmax-weighted average of the values: the shift
cancels between numerator and denominator. -/
theorem attn_warpdot_softmax (v a wbuf : ℕ → ℝ) (M : ℝ) (n : ℕ) (hn : 1 ≤ n)
    (hw : ∀ t, t < n → wbuf t = Real.exp (a t - M)) :
    attn_warpdot v wbuf n =
      ∑ t ∈ Finset.range n,
        (Real.exp (a t) / ∑ u ∈ Finset.range n, Real.exp (a u)) * v t := by
  have hS : 0 < ∑ u ∈ Finset.range n, Real.exp (a u) :=
    Finset.sum_pos (fun u _ => Real.exp_pos _) (Finset.nonempty_range_iff.mpr (by omega))
  have hME : (0 : ℝ) < (Real.exp M)⁻¹ := by positivity
  have h1 : ∑ t ∈ Finset.range n, v t * wbuf t =
      (Real.exp M)⁻¹ * ∑ t ∈ Finset.range n, v t * Real.exp (a t) := by
    rw [Finset.mul_sum]
    refine Finset.sum_congr rfl ?_
    intro t ht
    rw [hw t (Finset.mem_range.mp ht), Real.exp_sub]
    ring
  have h2 : ∑ t ∈ Finset.range n, wbuf t =
      (Real.exp M)⁻¹ * ∑ t ∈ Finset.range n, Real.exp (a t) := by
    rw [Finset.mul_sum]
    refine Finset.sum_congr rfl ?_
    intro t ht
    rw [hw t (Finset.mem_range.mp ht), Real.exp_sub]
    ring
  unfold attn_warpdot
  rw [h1, h2, mul_div_mul_left _ _ (ne_of_gt hME)]
  rw [eq_comm]
  calc ∑ t ∈ Finset.range n,
        (Real.exp (a t) / ∑ u ∈ Finset.range n, Real.exp (a u)) * v t
      = ∑ t ∈ Finset.range n,
          (v t * Real.exp (a t)) / ∑ u ∈ Finset.range n, Real.exp (a u) := by
        refine Finset.sum_congr rfl ?_
        intro t _
        ring
    _ = (∑ t ∈ Finset.range n, v t * Real.exp (a t)) /
          ∑ u ∈ Finset.range n, Real.exp (a u) := by
        rw [Finset.sum_div]

/-- C2.  After the score→softmax→mix pipeline, the attention output of head
`h` at in-head element `i` is the softmax-weighted average of the cached
value vectors over `[0, kv_len)`: the softmax kernel only max-subtracts and
exponentiates, and `attn_warpdot` divides the weighted value sum by the
exponent sum, so the effective weights `exp(score t)/Σ exp(score u)` sum
to 1. -/
theorem c2_attention_softmax_mix (att q kc vc : ℕ → ℝ)
    (n_heads head_dim seq_len kv_mul kvl h i : ℕ)
    (hh : h < n_heads) (hi : i < head_dim) (hkvl1 : 1 ≤ kvl) (hkvls : kvl ≤ seq_len) :
    q_after_mix q
        (att_after_softmax (att_after_score att q kc n_heads head_dim seq_len kv_mul kvl)
          n_heads seq_len kvl)
        vc n_heads head_dim seq_len kv_mul kvl (h * head_dim + i) =
      (∑ t ∈ Finset.range kvl,
        (Real.exp (attn_score q kc head_dim seq_len h (h / kv_mul) t) /
          ∑ u ∈ Finset.range kvl,
            Real.exp (attn_score q kc head_dim seq_len h (h / kv_mul) u)) *
        vc (seq_len * ((h / kv_mul) * head_dim + i) + t)) ∧
    (∑ t ∈ Finset.range kvl,
        Real.exp (attn_score q kc head_dim seq_len h (h / kv_mul) t) /
          ∑ u ∈ Finset.range kvl,
            Real.exp (attn_score q kc head_dim seq_len h (h / kv_mul) u)) = 1 := by
  have hS : 0 < ∑ u ∈ Finset.range kvl,
      Real.exp (attn_score q kc head_dim seq_len h (h / kv_mul) u) :=
    Finset.sum_pos (fun u _ => Real.exp_pos _) (Finset.nonempty_range_iff.mpr (by omega))
  constructor
  · have he : h * head_dim + i < n_heads * head_dim := by
      have h3 : h * head_dim + i < h * head_dim + head_dim := Nat.add_lt_add_left hi _
      have h4 : h * head_dim + head_dim = (h + 1) * head_dim := by ring
      have h5 : (h + 1) * head_dim ≤ n_heads * head_dim := Nat.mul_le_mul_right _ hh
      calc h * head_dim + i < h * head_dim + head_dim := h3
        _ = (h + 1) * head_dim := h4
        _ ≤ n_heads * head_dim := h5
    have hdiv : (h * head_dim + i) / head_dim = h := by
      rw [show h * head_dim + i = head_dim * h + i from by ring]
      exact strided_div _ _ _ hi
    have hmod : (h * head_dim + i) % head_dim = i := by
      rw [show h * head_dim + i = head_dim * h + i from by ring]
      exact strided_mod _ _ _ hi
    have hmix : q_after_mix q
        (att_after_softmax (att_after_score att q kc n_heads head_dim seq_len kv_mul kvl)
          n_heads seq_len kvl)
        vc n_heads head_dim seq_len kv_mul kvl (h * head_dim + i) =
        attn_warpdot (fun t => vc (seq_len * ((h / kv_mul) * head_dim + i) + t))
          (fun t =>
            att_after_softmax (att_after_score att q kc n_heads head_dim seq_len kv_mul kvl)
              n_heads seq_len kvl (h * seq_len + t)) kvl := by
      simp only [q_after_mix, if_pos he, hdiv, hmod]
    rw [hmix]
    refine attn_warpdot_softmax _ _ _
      (fold_max
        (fun j => att_after_score att q kc n_heads head_dim seq_len kv_mul kvl
          (h * seq_len + j)) kvl)
      kvl hkvl1 ?_
    intro t ht
    have hts : t < seq_len := lt_of_lt_of_le ht hkvls
    have hdiv2 : (h * seq_len + t) / seq_len = h := by
      rw [show h * seq_len + t = seq_len * h + t from by ring]
      exact strided_div _ _ _ hts
    have hmod2 : (h * seq_len + t) % seq_len = t := by
      rw [show h * seq_len + t = seq_len * h + t from by ring]
      exact strided_mod _ _ _ hts
    have hscore : ∀ u, u < kvl →
        att_after_score att q kc n_heads head_dim seq_len kv_mul kvl (h * seq_len + u) =
          attn_score q kc head_dim seq_len h (h / kv_mul) u := by
      intro u hu
      have hus : u < seq_len := lt_of_lt_of_le hu hkvls
      have hd : (h * seq_len + u) / seq_len = h := by
        rw [show h * seq_len + u = seq_len * h + u from by ring]
        exact strided_div _ _ _ hus
      have hm : (h * seq_len + u) % seq_len = u := by
        rw [show h * seq_len + u = seq_len * h + u from by ring]
        exact strided_mod _ _ _ hus
      have hu2 : u < 2 * ((kvl + 1) / 2) := by omega
      simp only [att_after_score, hd, hm, if_pos (And.intro hh hu2)]
    simp only [att_after_softmax, hdiv2, hmod2, if_pos (And.intro hh ht)]
    rw [hscore t ht]
  · rw [← Finset.sum_div, div_self (ne_of_gt hS)]

/-- Witness for C2 at a concrete input (one head, one position, zero
buffers): the effective attention weights sum to 1. -/
theorem c2_attention_softmax_mix_witness :
    (∑ t ∈ Finset.range 1,
        Real.exp (attn_score (fun _ => (0 : ℝ)) (fun _ => (0 : ℝ)) 1 1 0 0 t) /
          ∑ u ∈ Finset.range 1,
            Real.exp (attn_score (fun _ => (0 : ℝ)) (fun _ => (0 : ℝ)) 1 1 0 0 u)) = 1 :=
  (c2_attention_softmax_mix (fun _ => 0) (fun _ => 0) (fun _ => 0) (fun _ => 0)
    1 1 1 1 1 0 0 (by decide) (by decide) (by decide) (by decide)).2

/-! ## C4: MoE gate top-k selection (`moe_gate_warp`, infer.cu 377-409)

`moe_gate_warp` packs each lane's softmax-exponentiated weight and lane index
into one 32-bit sortable integer (`(__float_as_int(w) & 0xffffff00) | i`,
infer.cu 386) and then runs `active` warp-argmax iterations, clearing the
winning lane's packed value to 0 between iterations (infer.cu 392-400).
This section models the loop at the packed-integer level: lane `i < experts`
holds `key i · 256 + i` where `key i` is the (nonzero, by the claim's
"distinct-enough" assumption: the exponential does not underflow) top-24-bit
pattern of the weight's float bits, and a dead lane `i ≥ experts`
(`w = expf(-FLT_MAX - max) = 0.0`, bit pattern 0) holds just `i`.
`__int_as_float`, the map from a packed pattern back to the float value
summed into `sumw` (infer.cu 395) and divided by at infer.cu 407, is
abstracted as a function `dec : ℕ → ℝ` that is positive on live patterns
(`≥ 256`): positive floats have positive bit patterns and vice versa. -/

/-- Modelled from the spec: `warpreduce_maxi` (helpers.cuh) — the maximum of
the 32 packed lane values. -/
def warp_maxi (f : Fin 32 → ℕ) : ℕ := Finset.univ.sup f

/-- The clearing step of the top-k loop (infer.cu 399):
`wi = (wi == maxi) ? 0 : wi`. -/
def clear_maxi (f : Fin 32 → ℕ) : Fin 32 → ℕ :=
  fun i => if f i = warp_maxi f then 0 else f i

/-- The top-k loop of `moe_gate_warp` (infer.cu 392-400): `active`
iterations, each extracting the current max packed value (thread `k` keeps
it as `acti`) and clearing the winning lane. -/
def gate_loop (f : Fin 32 → ℕ) : ℕ → List ℕ
  | 0 => []
  | k + 1 => warp_maxi f :: gate_loop (clear_maxi f) k

/-- The packed lane values entering the loop (infer.cu 381-386). -/
def gate_packed (key : Fin 32 → ℕ) (experts : ℕ) : Fin 32 → ℕ :=
  fun i => if i.val < experts then key i * 256 + i.val else i.val

/-- `moe_experts[i] = acti & 0xff` (infer.cu 406). -/
def moe_experts_sel (key : Fin 32 → ℕ) (experts active : ℕ) : List ℕ :=
  (gate_loop (gate_packed key experts) active).map (fun v => v % 256)

/-- `moe_weights[i] = __int_as_float(acti) / sumw` (infer.cu 407), with
`sumw` the sum of the selected packed values' float interpretations
(infer.cu 395). -/
noncomputable def moe_weights_sel (dec : ℕ → ℝ) (key : Fin 32 → ℕ)
    (experts active : ℕ) : List ℝ :=
  let sel := gate_loop (gate_packed key experts) active
  sel.map (fun v => dec v / (sel.map dec).sum)

theorem gate_loop_length (f : Fin 32 → ℕ) (k : ℕ) : (gate_loop f k).length = k := by
  induction k generalizing f with
  | zero => rfl
  | succ k ih => simp [gate_loop, ih]

/-- Main induction for the gate loop: if live packed values (`≥ 256`) carry
their lane index in the low 8 bits and live lanes are expert lanes, and at
least `k` live lanes remain, then `k` selections all return live values,
their low-8-bit indices are pairwise distinct and in range, and each selected
value's index identifies a lane that was live at the start. -/
theorem gate_loop_main (experts k : ℕ) : ∀ f : Fin 32 → ℕ,
    (∀ i : Fin 32, 256 ≤ f i → f i % 256 = i.val) →
    (∀ i : Fin 32, 256 ≤ f i → i.val < experts) →
    k ≤ (Finset.univ.filter (fun i : Fin 32 => 256 ≤ f i)).card →
    (∀ v ∈ gate_loop f k, 256 ≤ v) ∧
    ((gate_loop f k).map (fun v => v % 256)).Nodup ∧
    (∀ v ∈ gate_loop f k, v % 256 < experts) ∧
    (∀ v ∈ gate_loop f k, ∃ i : Fin 32, 256 ≤ f i ∧ v % 256 = i.val) := by
  induction k with
  | zero => intro f _ _ _; simp [gate_loop]
  | succ k ih =>
    intro f H1 H2 H3
    have hSne : (Finset.univ.filter (fun i : Fin 32 => 256 ≤ f i)).Nonempty := by
      rw [← Finset.card_pos]; omega
    obtain ⟨i0, hi0mem⟩ := hSne
    have hi0 : 256 ≤ f i0 := (Finset.mem_filter.mp hi0mem).2
    have hMle : ∀ i, f i ≤ warp_maxi f := fun i => Finset.le_sup (Finset.mem_univ i)
    have hM256 : 256 ≤ warp_maxi f := le_trans hi0 (hMle i0)
    obtain ⟨imax, -, hsup⟩ :=
      Finset.exists_mem_eq_sup Finset.univ ⟨i0, Finset.mem_univ i0⟩ f
    have hwm : warp_maxi f = f imax := hsup
    have himaxlive : 256 ≤ f imax := by
      rw [← hwm]; exact hM256
    have huniq : ∀ i : Fin 32, f i = warp_maxi f → i = imax := by
      intro i hi
      have hilive : 256 ≤ f i := by rw [hi]; exact hM256
      have h1 : f i % 256 = i.val := H1 i hilive
      have h2 : f imax % 256 = imax.val := H1 imax himaxlive
      apply Fin.ext
      rw [← h1, ← h2, hi, hwm]
    have hclear_eq : ∀ i, 256 ≤ clear_maxi f i → clear_maxi f i = f i := by
      intro i h
      by_cases hc : f i = warp_maxi f
      · exfalso; simp [clear_maxi, hc] at h
      · simp [clear_maxi, hc]
    have H1' : ∀ i : Fin 32, 256 ≤ clear_maxi f i → clear_maxi f i % 256 = i.val := by
      intro i h
      rw [hclear_eq i h]
      exact H1 i (by rw [← hclear_eq i h]; exact h)
    have H2' : ∀ i : Fin 32, 256 ≤ clear_maxi f i → i.val < experts := by
      intro i h
      exact H2 i (by rw [← hclear_eq i h]; exact h)
    have himaxclear : clear_maxi f imax = 0 := by
      simp [clear_maxi, hwm]
    have hSstep : (Finset.univ.filter (fun i : Fin 32 => 256 ≤ clear_maxi f i)) =
        (Finset.univ.filter (fun i : Fin 32 => 256 ≤ f i)).erase imax := by
      ext i
      simp only [Finset.mem_filter, Finset.mem_erase, Finset.mem_univ, true_and]
      constructor
      · intro h
        have he := hclear_eq i h
        refine ⟨?_, by rw [← he]; exact h⟩
        intro hEq
        rw [hEq, himaxclear] at h
        omega
      · rintro ⟨hne, hlive⟩
        have hnm : f i ≠ warp_maxi f := fun hc => hne (huniq i hc)
        simpa [clear_maxi, hnm] using hlive
    have himaxmem : imax ∈ Finset.univ.filter (fun i : Fin 32 => 256 ≤ f i) :=
      Finset.mem_filter.mpr ⟨Finset.mem_univ _, himaxlive⟩
    have H3' : k ≤ (Finset.univ.filter (fun i : Fin 32 => 256 ≤ clear_maxi f i)).card := by
      rw [hSstep, Finset.card_erase_of_mem himaxmem]
      omega
    obtain ⟨A', B', C', D'⟩ := ih (clear_maxi f) H1' H2' H3'
    have hunf : gate_loop f (k + 1) = warp_maxi f :: gate_loop (clear_maxi f) k := rfl
    have hMmod : warp_maxi f % 256 = imax.val := by
      rw [hwm]; exact H1 imax himaxlive
    refine ⟨?_, ?_, ?_, ?_⟩
    · intro v hv
      rw [hunf, List.mem_cons] at hv
      rcases hv with rfl | hv
      · exact hM256
      · exact A' v hv
    · rw [hunf]
      simp only [List.map_cons, List.nodup_cons]
      refine ⟨?_, B'⟩
      intro hmem
      rw [List.mem_map] at hmem
      obtain ⟨v, hv, hveq⟩ := hmem
      obtain ⟨i, hilive, hvi⟩ := D' v hv
      have : i = imax := by
        apply Fin.ext
        rw [← hvi, hveq, hMmod]
      rw [this, himaxclear] at hilive
      omega
    · intro v hv
      rw [hunf, List.mem_cons] at hv
      rcases hv with rfl | hv
      · rw [hMmod]; exact H2 imax himaxlive
      · exact C' v hv
    · intro v hv
      rw [hunf, List.mem_cons] at hv
      rcases hv with rfl | hv
      · exact ⟨imax, himaxlive, hMmod⟩
      · obtain ⟨i, hilive, hvi⟩ := D' v hv
        exact ⟨i, by rw [← hclear_eq i hilive]; exact hilive, hvi⟩

theorem list_map_div_sum (l : List ℕ) (g : ℕ → ℝ) (T : ℝ) :
    (l.map (fun v => g v / T)).sum = (l.map g).sum / T := by
  induction l with
  | nil => simp
  | cons a l ih => simp [ih, add_div]

/-- The live lanes of the initial packed state are exactly the expert
lanes. -/
theorem gate_packed_live (key : Fin 32 → ℕ) (experts : ℕ)
    (hkey : ∀ i : Fin 32, 1 ≤ key i) (i : Fin 32) :
    256 ≤ gate_packed key experts i ↔ i.val < experts := by
  constructor
  · intro h
    by_contra hc
    have hge : ¬ i.val < experts := hc
    have : gate_packed key experts i = i.val := by simp [gate_packed, hge]
    rw [this] at h
    have := i.isLt
    omega
  · intro h
    have : gate_packed key experts i = key i * 256 + i.val := by simp [gate_packed, h]
    rw [this]
    have := hkey i
    have := i.isLt
    nlinarith [hkey i]

theorem card_filter_val_lt (E : ℕ) (hE : E ≤ 32) :
    (Finset.univ.filter (fun i : Fin 32 => i.val < E)).card = E := by
  have hset : (Finset.univ.filter (fun i : Fin 32 => i.val < E)) =
      Finset.map (Fin.castLEEmb hE) Finset.univ := by
    ext i
    simp only [Finset.mem_filter, Finset.mem_univ, true_and, Finset.mem_map,
      Fin.castLEEmb_apply]
    constructor
    · intro h
      refine ⟨⟨i.val, h⟩, ?_⟩
      apply Fin.ext
      simp [Fin.castLE]
    · rintro ⟨a, rfl⟩
      simpa using a.isLt
  rw [hset, Finset.card_map, Finset.card_univ, Fintype.card_fin]

/-- C4.  MoE gate: for every gate-logit vector whose packed weights are
"distinct enough" (no underflow: every live lane's truncated weight bits are
nonzero) with `experts ≤ 32` and `1 ≤ active ≤ experts`, the gate selects
exactly `active` experts with pairwise-distinct in-range indices, and the
normalized selected weights sum to exactly 1 (the model is over exact reals,
so "within floating-point tolerance" becomes exact equality). -/
theorem c4_moe_gate (key : Fin 32 → ℕ) (dec : ℕ → ℝ) (experts active : ℕ)
    (hE : experts ≤ 32) (hA1 : 1 ≤ active) (hAE : active ≤ experts)
    (hkey : ∀ i : Fin 32, 1 ≤ key i) (hdec : ∀ m : ℕ, 256 ≤ m → 0 < dec m) :
    (moe_experts_sel key experts active).length = active ∧
    (moe_experts_sel key experts active).Nodup ∧
    (∀ e ∈ moe_experts_sel key experts active, e < experts) ∧
    (moe_weights_sel dec key experts active).sum = 1 := by
  have H1 : ∀ i : Fin 32, 256 ≤ gate_packed key experts i →
      gate_packed key experts i % 256 = i.val := by
    intro i h
    have hlt : i.val < experts := (gate_packed_live key experts hkey i).mp h
    have hval : gate_packed key experts i = key i * 256 + i.val := by
      simp [gate_packed, hlt]
    rw [hval]
    have hi32 : i.val < 32 := i.isLt
    rw [show key i * 256 + i.val = 256 * key i + i.val from by ring, Nat.mul_add_mod]
    omega
  have H2 : ∀ i : Fin 32, 256 ≤ gate_packed key experts i → i.val < experts :=
    fun i h => (gate_packed_live key experts hkey i).mp h
  have H3 : active ≤
      (Finset.univ.filter (fun i : Fin 32 => 256 ≤ gate_packed key experts i)).card := by
    have : (Finset.univ.filter (fun i : Fin 32 => 256 ≤ gate_packed key experts i)) =
        (Finset.univ.filter (fun i : Fin 32 => i.val < experts)) := by
      ext i
      simp only [Finset.mem_filter, Finset.mem_univ, true_and]
      exact gate_packed_live key experts hkey i
    rw [this, card_filter_val_lt experts hE]
    exact hAE
  obtain ⟨A, B, C, D⟩ := gate_loop_main experts active (gate_packed key experts) H1 H2 H3
  refine ⟨?_, B, ?_, ?_⟩
  · simp [moe_experts_sel, gate_loop_length]
  · intro e he
    rw [moe_experts_sel, List.mem_map] at he
    obtain ⟨v, hv, rfl⟩ := he
    exact C v hv
  · have hlen : (gate_loop (gate_packed key experts) active).length = active :=
      gate_loop_length _ _
    have hne : gate_loop (gate_packed key experts) active ≠ [] := by
      intro h
      rw [h] at hlen
      simp at hlen
      omega
    have hTpos : 0 < ((gate_loop (gate_packed key experts) active).map dec).sum := by
      apply List.sum_pos
      · intro x hx
        rw [List.mem_map] at hx
        obtain ⟨v, hv, rfl⟩ := hx
        exact hdec v (A v hv)
      · simpa using hne
    rw [moe_weights_sel]
    rw [list_map_div_sum, div_self (ne_of_gt hTpos)]

/-- Witness for C4: `experts = 2`, `active = 2`, all keys 1,
`dec m = m`. -/
theorem c4_moe_gate_witness :
    (moe_experts_sel (fun _ => 1) 2 2).length = 2 ∧
    (moe_experts_sel (fun _ => 1) 2 2).Nodup ∧
    (∀ e ∈ moe_experts_sel (fun _ => 1) 2 2, e < 2) ∧
    (moe_weights_sel (fun m => (m : ℝ)) (fun _ => 1) 2 2).sum = 1 :=
  c4_moe_gate (fun _ => 1) (fun m => (m : ℝ)) 2 2 (by decide) (by decide) (by decide)
    (fun _ => le_refl 1) (fun m hm => by positivity)

/-! ## The forward drivers -/

/-- `model.h`, `struct Weights`, modelled over reals (dequantization is the
identity in the real-valued model).  Matrices are flat row-major functions;
per-layer pointer arrays are indexed by the layer number.  Nullable bias
pointers (`if (b) val += b[j]`, infer.cu 268-270) are `Option`s; `b1`/`b2`
are only read on the Phi path, where they are always present. -/
structure WeightsR where
  token_embedding_table : ℕ → ℝ
  ln_weight : ℕ → ℕ → ℝ
  rms_att_weight : ℕ → ℕ → ℝ
  rms_ffn_weight : ℕ → ℕ → ℝ
  wq : ℕ → ℕ → ℝ
  wk : ℕ → ℕ → ℝ
  wv : ℕ → ℕ → ℝ
  wo : ℕ → ℕ → ℝ
  w1 : ℕ → ℕ → ℝ
  w2 : ℕ → ℕ → ℝ
  w3 : ℕ → ℕ → ℝ
  ln_final_weight : ℕ → ℝ
  rms_final_weight : ℕ → ℝ
  wcls : ℕ → ℝ
  bq : ℕ → Option (ℕ → ℝ)
  bk : ℕ → Option (ℕ → ℝ)
  bv : ℕ → Option (ℕ → ℝ)
  b1 : ℕ → ℕ → ℝ
  b2 : ℕ → ℕ → ℝ
  bcls : Option (ℕ → ℝ)
  moegate : ℕ → ℕ → ℝ

/-- `model.h`, `struct RunState`, modelled over reals.  Scratch buffers are
total functions; a kernel writes exactly its index region and the rest keeps
its previous (arbitrary) contents.  The `exp` buffer is modelled by its two
logical regions (infer.cu 727-728): `moe_weights` (`exp + n_experts`) and
`moe_experts` (`(int*)moe_weights + n_experts_ac`, the integer
reinterpretation).  For dense models, `prepare_cuda` fills it with
`{1.0f, 0}` (infer.cu 103-108): weight 1.0 in slot 0 and (the float `0`
bit pattern read as an int) expert index 0.  KV caches are per-layer flat
functions (one function per layer models the `l·seq_len·kv_dim` offset). -/
structure RunStateR where
  x : ℕ → ℝ
  xb : ℕ → ℝ
  xa : ℕ → ℝ
  hb : ℕ → ℝ
  he : ℕ → ℝ
  q : ℕ → ℝ
  att : ℕ → ℝ
  moe_weights : ℕ → ℝ
  moe_experts : ℕ → ℕ
  key_cache : ℕ → ℕ → ℝ
  value_cache : ℕ → ℕ → ℝ

/-- The gate logits of `kernel_moe_gate` (infer.cu 411-426) and of the
cooperative gate (infer.cu 1016-1023): `g[j] = Wg row j · xb` for
`j < experts`. -/
noncomputable def moe_gate_logits (xb mg : ℕ → ℝ) (n : ℕ) : ℕ → ℝ :=
  fun j => matmul_warppar xb mg j n

theorem exists_lane_max (f : Fin 32 → ℝ) : ∃ i : Fin 32, ∀ j, f j ≤ f i := by
  obtain ⟨i, -, hi⟩ :=
    Finset.exists_max_image (Finset.univ : Finset (Fin 32)) f ⟨0, Finset.mem_univ 0⟩
  exact ⟨i, fun j => hi j (Finset.mem_univ j)⟩

open Classical in
/-- The argmax lane of `warpreduce_maxi` at the real-valued level: the packed
integer order is (weight bits, lane index) lexicographic, so the winning lane
is the largest-index lane among those holding the maximal weight.  (The
packed-integer behaviour itself is verified in the C4 section; the pipeline
uses this exact-real idealization.) -/
noncomputable def warp_argmax (f : Fin 32 → ℝ) : Fin 32 :=
  (Finset.univ.filter (fun i => ∀ j, f j ≤ f i)).max'
    (by
      obtain ⟨i, hi⟩ := exists_lane_max f
      exact ⟨i, Finset.mem_filter.mpr ⟨Finset.mem_univ i, hi⟩⟩)

/-- The selected weights of the top-k loop (infer.cu 392-400), real-valued:
each iteration takes the max lane value and clears every lane holding it. -/
noncomputable def gate_pick (f : Fin 32 → ℝ) : ℕ → List ℝ
  | 0 => []
  | k + 1 => f (warp_argmax f) ::
      gate_pick (fun j => if f j = f (warp_argmax f) then 0 else f j) k

/-- The selected lanes of the top-k loop, real-valued. -/
noncomputable def gate_pick_idx (f : Fin 32 → ℝ) : ℕ → List (Fin 32)
  | 0 => []
  | k + 1 => warp_argmax f ::
      gate_pick_idx (fun j => if f j = f (warp_argmax f) then 0 else f j) k

/-- The per-lane exponentiated weights entering the top-k loop
(infer.cu 380-383): `w = expf(w − max)` with dead lanes (`i ≥ experts`)
carrying `-FLT_MAX`, whose exponential underflows to 0. -/
noncomputable def gate_exp_weights (g : ℕ → ℝ) (experts : ℕ) : Fin 32 → ℝ :=
  fun i =>
    if i.val < experts then
      Real.exp (g i.val - fold_max (fun j => if j < experts then g j else -FLT_MAX) 32)
    else 0

/-- The full `moe_gate_warp` result at the real-valued pipeline level
(infer.cu 377-409): normalized weights and expert indices written into the
`moe_weights`/`moe_experts` regions for the first `active` slots; other slots
keep their previous contents. -/
noncomputable def moe_gate_result (mw0 : ℕ → ℝ) (me0 : ℕ → ℕ) (g : ℕ → ℝ)
    (experts active : ℕ) : (ℕ → ℝ) × (ℕ → ℕ) :=
  let e := gate_exp_weights g experts
  let ws := gate_pick e active
  let idx := gate_pick_idx e active
  let sumw := ws.sum
  (fun k => if k < active then ws.getD k 0 / sumw else mw0 k,
   fun k => if k < active then (idx.getD k (0 : Fin 32)).val else me0 k)

/-- `kernel_matmul_ffn13_silu` / `kernel_matmul_ffn13_gelu`
(infer.cu 321-349): `hb[i] = act(w1 row i · xb) · (w3 row i · xb)` for
`i < d`. -/
noncomputable def ffn13 (hb xb w1 w3 : ℕ → ℝ) (act : ℝ → ℝ) (n d : ℕ) : ℕ → ℝ :=
  fun i => if i < d then
    act (matmul_warppar xb w1 i n) * matmul_warppar xb w3 i n
  else hb i

/-- `kernel_matmul_ffn1_gelu` (infer.cu 351-363): `hb[i] = gelu(w1·xb +
b1[i])`. -/
noncomputable def ffn1_gelu (hb xb w1 b1f : ℕ → ℝ) (n d : ℕ) : ℕ → ℝ :=
  fun i => if i < d then gelu (matmul_warppar xb w1 i n + b1f i) else hb i

/-- `kernel_matmul_ffn2` (infer.cu 365-375): `xout[i] = w2 row i · hb +
acc[i]` (the driver passes `acc = x` for the residual, or `acc = b2` for
Phi's bias). -/
noncomputable def ffn2 (xout hb w2 acc : ℕ → ℝ) (n d : ℕ) : ℕ → ℝ :=
  fun i => if i < d then matmul_warppar hb w2 i n + acc i else xout i

/-- `kernel_matmul_moe_ffn13_silu` (infer.cu 428-444): for `j = i + e·d`,
`i < d`, `e < ac`: `he[j] = silu(w1 row (i + expert(e)·d) · xb) ·
(w3 row (i + expert(e)·d) · xb)` (`d` is the hidden dimension). -/
noncomputable def moe_he (he xb w1 w3 : ℕ → ℝ) (experts_of : ℕ → ℕ) (n d ac : ℕ) : ℕ → ℝ :=
  fun j => if j < d * ac then
    silu (matmul_warppar xb w1 (j % d + experts_of (j / d) * d) n) *
      matmul_warppar xb w3 (j % d + experts_of (j / d) * d) n
  else he j

/-- `kernel_matmul_moe_ffn2` (infer.cu 446-467): for `i < d`:
`x[i] += Σ_{e<ac} (w2 row (i + expert(e)·d) · he_e) · weight(e)`
(`n` is the hidden dimension). -/
noncomputable def moe_down (x he w2 : ℕ → ℝ) (experts_of : ℕ → ℕ)
    (weights_of : ℕ → ℝ) (n d ac : ℕ) : ℕ → ℝ :=
  fun i => if i < d then
    x i + ∑ e ∈ Finset.range ac,
      matmul_warppar (fun jj => he (e * n + jj)) w2 (i + experts_of e * d) n * weights_of e
  else x i

/-- `kernel_embed` (infer.cu 159-165, launched at 665 and 1111):
`x[i] = E[token·dim + i] · embed_scale` for `i < dim`. -/
noncomputable def embed_stage (cfg : Config) (w : WeightsR) (token : ℕ)
    (s : RunStateR) : RunStateR :=
  { s with x := fun i => if i < cfg.dim then
      w.token_embedding_table (token * cfg.dim + i) * cfg.embed_scale
    else s.x i }

/-- The sink-rotation phase of both drivers (infer.cu 667-671 and
1113-1117): when `kv_sink > 0`, `kernel_rotate_sink` rotates the sink keys
of every layer's key cache forward by one frequency unit. -/
noncomputable def sink_phase (cfg : Config) (pos : ℕ) (s : RunStateR) : RunStateR :=
  if 0 < kv_sink cfg pos then
    { s with key_cache := fun l =>
        if l < cfg.n_layers then rotate_sink_cache (s.key_cache l) (cfg.head_dim * cfg.n_kv_heads) cfg.head_dim (kv_sink cfg pos) cfg.seq_len cfg.rotary_dim (Real.logb 2 cfg.rope_theta)
        else s.key_cache l }
  else s

/-- The pre-attention norm of the multi-kernel driver (infer.cu 677-692):
Phi — LayerNorm folding in the previous layer's parallel-MLP accumulator
`xa` (none on layer 0); Olmo — LayerNorm; others — RMSNorm.  Output goes to
`xb` (Phi's accumulation also updates `x` in place). -/
noncomputable def attn_norm (cfg : Config) (w : WeightsR) (l : ℕ) (s : RunStateR) : RunStateR :=
  match cfg.arch with
  | Arch.Phi =>
    let r := kernel_layernorm s.xb s.x (if l = 0 then none else some s.xa)
      (w.ln_weight l) cfg.dim cfg.norm_eps
    { s with xb := r.1, x := r.2 }
  | Arch.Olmo =>
    { s with xb := (kernel_layernorm s.xb s.x none (w.rms_att_weight l)
        cfg.dim cfg.norm_eps).1 }
  | _ =>
    { s with xb := kernel_rmsnorm s.xb s.x (w.rms_att_weight l) cfg.dim cfg.norm_eps }

/-- The fused QKV+RoPE+KV-write stage (infer.cu 694-697): updates `q` and
layer `l`'s K/V caches at position `kv_pos`. -/
noncomputable def qkv_stage (cfg : Config) (w : WeightsR) (pos l : ℕ)
    (s : RunStateR) : RunStateR :=
  let q_dim := cfg.head_dim * cfg.n_heads
  let kv_dim := cfg.head_dim * cfg.n_kv_heads
  let kvp := kv_pos cfg pos
  let th := Real.logb 2 cfg.rope_theta
  { s with
    q := qkv_q s.q s.xb (w.wq l) (w.bq l) cfg.dim q_dim cfg.head_dim cfg.rotary_dim pos th,
    key_cache := fun l2 =>
      if l2 = l then
        qkv_key_cache (s.key_cache l) s.xb (w.wk l) (w.bk l) cfg.dim kv_dim cfg.head_dim
          cfg.rotary_dim cfg.seq_len pos kvp th
      else s.key_cache l2,
    value_cache := fun l2 =>
      if l2 = l then
        qkv_value_cache (s.value_cache l) s.xb (w.wv l) (w.bv l) cfg.dim kv_dim
          cfg.seq_len kvp
      else s.value_cache l2 }

/-- The attention stage of the multi-kernel driver (infer.cu 704-719):
score, softmax, mix into `q`, then output projection accumulated into `x`. -/
noncomputable def attn_stage (cfg : Config) (w : WeightsR) (pos l : ℕ)
    (s : RunStateR) : RunStateR :=
  let q_dim := cfg.head_dim * cfg.n_heads
  let kv_mul := cfg.n_heads / cfg.n_kv_heads
  let kvl := kv_len cfg pos
  let att1 := att_after_score s.att s.q (s.key_cache l) cfg.n_heads cfg.head_dim
    cfg.seq_len kv_mul kvl
  let att2 := att_after_softmax att1 cfg.n_heads cfg.seq_len kvl
  let q2 := q_after_mix s.q att2 (s.value_cache l) cfg.n_heads cfg.head_dim
    cfg.seq_len kv_mul kvl
  { s with
    att := att2,
    q := q2,
    x := fun i => if i < cfg.dim then s.x i + matmul_warppar q2 (w.wo l) i q_dim
      else s.x i }

/-- The FFN stage of the multi-kernel driver (infer.cu 721-772): Mixtral —
RMSNorm, MoE gate, per-expert gated FFN, weighted accumulation; Phi —
biased GELU FFN into the parallel accumulator `xa`; Olmo — LayerNorm then
gated SiLU FFN; others — RMSNorm then gated FFN (GELU for Gemma, SiLU
otherwise), residual into `x`. -/
noncomputable def ffn_stage (cfg : Config) (w : WeightsR) (l : ℕ)
    (s : RunStateR) : RunStateR :=
  match cfg.arch with
  | Arch.Mixtral =>
    let xb2 := kernel_rmsnorm s.xb s.x (w.rms_ffn_weight l) cfg.dim cfg.norm_eps
    let g := moe_gate_logits xb2 (w.moegate l) cfg.dim
    let gr := moe_gate_result s.moe_weights s.moe_experts g cfg.n_experts cfg.n_experts_ac
    let he2 := moe_he s.he xb2 (w.w1 l) (w.w3 l) gr.2 cfg.dim cfg.hidden_dim cfg.n_experts_ac
    let x2 := moe_down s.x he2 (w.w2 l) gr.2 gr.1 cfg.hidden_dim cfg.dim cfg.n_experts_ac
    { s with xb := xb2, moe_weights := gr.1, moe_experts := gr.2, he := he2, x := x2 }
  | Arch.Phi =>
    let hb2 := ffn1_gelu s.hb s.xb (w.w1 l) (w.b1 l) cfg.dim cfg.hidden_dim
    let xa2 := ffn2 s.xa hb2 (w.w2 l) (w.b2 l) cfg.hidden_dim cfg.dim
    { s with hb := hb2, xa := xa2 }
  | Arch.Olmo =>
    let xb2 := (kernel_layernorm s.xb s.x none (w.rms_ffn_weight l) cfg.dim cfg.norm_eps).1
    let hb2 := ffn13 s.hb xb2 (w.w1 l) (w.w3 l) silu cfg.dim cfg.hidden_dim
    let x2 := ffn2 s.x hb2 (w.w2 l) s.x cfg.hidden_dim cfg.dim
    { s with xb := xb2, hb := hb2, x := x2 }
  | _ =>
    let xb2 := kernel_rmsnorm s.xb s.x (w.rms_ffn_weight l) cfg.dim cfg.norm_eps
    let act := if cfg.arch = Arch.Gemma then gelu else silu
    let hb2 := ffn13 s.hb xb2 (w.w1 l) (w.w3 l) act cfg.dim cfg.hidden_dim
    let x2 := ffn2 s.x hb2 (w.w2 l) s.x cfg.hidden_dim cfg.dim
    { s with xb := xb2, hb := hb2, x := x2 }

/-- The prefix of one layer up to (and including) the QKV/KV-cache write —
the point of the UPDATE_KV_ONLY break (infer.cu 699-702). -/
noncomputable def layer_pre (cfg : Config) (w : WeightsR) (pos l : ℕ)
    (s : RunStateR) : RunStateR :=
  qkv_stage cfg w pos l (attn_norm cfg w l s)

/-- The remainder of one layer after the break point: attention and FFN. -/
noncomputable def layer_post (cfg : Config) (w : WeightsR) (pos l : ℕ)
    (s : RunStateR) : RunStateR :=
  ffn_stage cfg w l (attn_stage cfg w pos l s)

/-- The layer loop of the multi-kernel driver (infer.cu 674-773) with the
UPDATE_KV_ONLY break: on the last layer with flag bit 0 set, the layer stops
after `layer_pre`. -/
noncomputable def forward_layers (cfg : Config) (w : WeightsR) (pos flags : ℕ)
    (s : RunStateR) : RunStateR :=
  (List.range cfg.n_layers).foldl (fun st l =>
    let st2 := layer_pre cfg w pos l st
    if l = cfg.n_layers - 1 ∧ flags % 2 = 1 then st2 else layer_post cfg w pos l st2) s

/-- The final normalization and classifier of the multi-kernel driver
(infer.cu 780-793): Phi — LayerNorm with the `xa` accumulator; Olmo —
LayerNorm; others — RMSNorm; then `logits[i] = Wcls row i · x (+ bcls)`. -/
noncomputable def final_stage (cfg : Config) (w : WeightsR)
    (s : RunStateR) : (ℕ → ℝ) × RunStateR :=
  let xf : ℕ → ℝ :=
    match cfg.arch with
    | Arch.Phi => (kernel_layernorm s.x s.x (some s.xa) w.ln_final_weight cfg.dim cfg.norm_eps).1
    | Arch.Olmo => (kernel_layernorm s.x s.x none w.rms_final_weight cfg.dim cfg.norm_eps).1
    | _ => kernel_rmsnorm s.x s.x w.rms_final_weight cfg.dim cfg.norm_eps
  (fun i => matmul_warppar xf w.wcls i cfg.dim +
      (match w.bcls with | some b => b i | none => 0),
   { s with x := xf })

/-- The multi-kernel forward driver `forward<T, KVT>` (infer.cu 628-799):
embedding, sink rotation, the layer loop with the UPDATE_KV_ONLY break,
final norm and classifier.  Returns `none` instead of a logits pointer when
flag bit 0 (`FF_UPDATE_KV_ONLY`) is set (infer.cu 775-778); the flag test
`(flags & FF_UPDATE_KV_ONLY) != 0` is `flags % 2 = 1`. -/
noncomputable def forward_multi (cfg : Config) (w : WeightsR) (token pos flags : ℕ)
    (s : RunStateR) : Option (ℕ → ℝ) × RunStateR :=
  let s1 := embed_stage cfg w token s
  let s2 := sink_phase cfg pos s1
  let s3 := forward_layers cfg w pos flags s2
  if flags % 2 = 1 then (none, s3)
  else
    let r := final_stage cfg w s3
    (some r.1, r.2)

/-! ## C9: argument errors -/

/-- The argument validation in front of the forward computation.  The
assertion `assert(token < p->vocab_size)` is in the drivers themselves
(infer.cu 664 and 1110).  Modelled from the spec: the `pos < 0` check
("**Argument errors** — `token ≥ V`, `pos < 0`. Detected via assertion;
fatal.") lives in the caller of `forward_cuda`, which is not among the
sources at hand; it is modelled here as part of the same fatal-assertion
guard.  A failed assertion aborts the process before any kernel runs,
modelled as `none`. -/
noncomputable def forward_checked (cfg : Config) (w : WeightsR) (token pos : ℤ)
    (flags : ℕ) (s : RunStateR) : Option (Option (ℕ → ℝ) × RunStateR) :=
  if token < (cfg.vocab_size : ℤ) ∧ 0 ≤ pos then
    some (forward_multi cfg w token.toNat pos.toNat flags s)
  else none

/-- C9.  Argument errors: a call with `token ≥ vocab_size` or with negative
`pos` is fatal and never proceeds to compute logits. -/
theorem c9_argument_errors (cfg : Config) (w : WeightsR) (token pos : ℤ)
    (flags : ℕ) (s : RunStateR)
    (h : (cfg.vocab_size : ℤ) ≤ token ∨ pos < 0) :
    forward_checked cfg w token pos flags s = none := by
  rw [forward_checked, if_neg]
  omega

/-- An all-zero weight table (used only to instantiate witnesses). -/
noncomputable def zeroWeights : WeightsR :=
  ⟨fun _ => 0, fun _ _ => 0, fun _ _ => 0, fun _ _ => 0, fun _ _ => 0, fun _ _ => 0,
   fun _ _ => 0, fun _ _ => 0, fun _ _ => 0, fun _ _ => 0, fun _ _ => 0, fun _ => 0,
   fun _ => 0, fun _ => 0, fun _ => none, fun _ => none, fun _ => none,
   fun _ _ => 0, fun _ _ => 0, none, fun _ _ => 0⟩

/-- An all-zero run state (used only to instantiate witnesses). -/
noncomputable def zeroState : RunStateR :=
  ⟨fun _ => 0, fun _ => 0, fun _ => 0, fun _ => 0, fun _ => 0, fun _ => 0, fun _ => 0,
   fun _ => 0, fun _ => 0, fun _ _ => 0, fun _ _ => 0⟩

/-- A small concrete configuration (used only to instantiate witnesses). -/
noncomputable def tinyConfig : Config :=
  ⟨Arch.LlamaLike, 32, 32, 2, 1, 2, 2, 32, 8, 10000, 2, 0, 0, 0.00001, 1⟩

/-- Witness for C9: `vocab_size = 32`, `token = 40` is rejected. -/
theorem c9_argument_errors_witness :
    ((32 : ℤ) ≤ 40 ∨ (5 : ℤ) < 0) ∧
    forward_checked tinyConfig zeroWeights 40 5 0 zeroState = none :=
  ⟨by decide,
   c9_argument_errors tinyConfig zeroWeights 40 5 0 zeroState (by left; decide)⟩

/-! ## C5: UPDATE_KV_ONLY control flow -/

/-- The kernel launches of the multi-kernel driver, as abstract trace
steps (layer-tagged where per-layer). -/
inductive Step where
  | embed : Step
  | rotateSink : Step
  | normAtt : ℕ → Step
  | qkv : ℕ → Step
  | attnScore : ℕ → Step
  | attnSoftmax : ℕ → Step
  | attnMix : ℕ → Step
  | attnOut : ℕ → Step
  | normFfn : ℕ → Step
  | moeGate : ℕ → Step
  | ffnUp : ℕ → Step
  | ffnDown : ℕ → Step
  | normFinal : Step
  | classifier : Step
deriving DecidableEq, Repr

/-- The launches of one layer up to the UPDATE_KV_ONLY break point
(infer.cu 677-697): the pre-attention norm and the fused QKV. -/
def layer_pre_trace (l : ℕ) : List Step := [Step.normAtt l, Step.qkv l]

/-- The launches of one layer past the break point (infer.cu 704-772). -/
def layer_post_trace (cfg : Config) (l : ℕ) : List Step :=
  [Step.attnScore l, Step.attnSoftmax l, Step.attnMix l, Step.attnOut l] ++
  (match cfg.arch with
   | Arch.Mixtral => [Step.normFfn l, Step.moeGate l, Step.ffnUp l, Step.ffnDown l]
   | Arch.Phi => [Step.ffnUp l, Step.ffnDown l]
   | _ => [Step.normFfn l, Step.ffnUp l, Step.ffnDown l])

/-- The launches of the first `n` iterations of the layer loop
(infer.cu 674-773): each layer contributes its prefix, and — unless it is
the last layer under UPDATE_KV_ONLY (the break at infer.cu 699-702) — its
remainder. -/
def layers_trace (cfg : Config) (flags : ℕ) : ℕ → List Step
  | 0 => []
  | l + 1 => layers_trace cfg flags l ++
      (if l = cfg.n_layers - 1 ∧ flags % 2 = 1 then layer_pre_trace l
       else layer_pre_trace l ++ layer_post_trace cfg l)

/-- The kernel-launch trace of the multi-kernel driver `forward`
(infer.cu 628-799), including the UPDATE_KV_ONLY break on the last layer
and the skipped final-norm/classifier tail (infer.cu 775-778). -/
def forward_trace (cfg : Config) (pos flags : ℕ) : List Step :=
  [Step.embed] ++
  (if 0 < kv_sink cfg pos then [Step.rotateSink] else []) ++
  layers_trace cfg flags cfg.n_layers ++
  (if flags % 2 = 1 then [] else [Step.normFinal, Step.classifier])

/-- The phases of one layer of the cooperative fused kernel
(infer.cu 894-1061).  The kernel receives no flags and has *no*
UPDATE_KV_ONLY break: every layer, the last included, runs its attention
and FFN phases.  The MoE gate phase runs only when `n_experts ≠ 0`
(infer.cu 1016). -/
def coop_layer_trace (cfg : Config) (l : ℕ) : List Step :=
  [Step.normAtt l, Step.qkv l, Step.attnScore l, Step.attnSoftmax l, Step.attnMix l,
   Step.attnOut l, Step.normFfn l] ++
  (if cfg.n_experts ≠ 0 then [Step.moeGate l] else []) ++
  [Step.ffnUp l, Step.ffnDown l]

/-- The kernel-launch trace of the cooperative driver `forwardcoop`
(infer.cu 1085-1179): embedding, optional sink rotation, the fused
cooperative kernel running *every* layer in full, then — only when flag
bit 0 is clear — `kernel_output` (which performs the final RMSNorm and the
classifier in one launch; listed as its two phases). -/
def coop_trace (cfg : Config) (pos flags : ℕ) : List Step :=
  [Step.embed] ++
  (if 0 < kv_sink cfg pos then [Step.rotateSink] else []) ++
  ((List.range cfg.n_layers).map (coop_layer_trace cfg)).join ++
  (if flags % 2 = 1 then [] else [Step.normFinal, Step.classifier])

theorem mem_layers_trace (cfg : Config) (flags : ℕ) (st : Step) (n : ℕ) :
    st ∈ layers_trace cfg flags n ↔
      ∃ l, l < n ∧ st ∈ (if l = cfg.n_layers - 1 ∧ flags % 2 = 1 then layer_pre_trace l
        else layer_pre_trace l ++ layer_post_trace cfg l) := by
  induction n with
  | zero => simp [layers_trace]
  | succ n ih =>
    rw [layers_trace, List.mem_append, ih]
    constructor
    · rintro (⟨l, hl, hmem⟩ | hmem)
      · exact ⟨l, by omega, hmem⟩
      · exact ⟨n, by omega, hmem⟩
    · rintro ⟨l, hl, hmem⟩
      by_cases hln : l = n
      · exact Or.inr (hln ▸ hmem)
      · exact Or.inl ⟨l, by omega, hmem⟩

/-! ## C7: sink rotation across forward calls -/

theorem rope_rotate_compose (v0 v1 a b : ℝ) :
    rope_rotate (rope_rotate v0 v1 a).1 (rope_rotate v0 v1 a).2 b =
      rope_rotate v0 v1 (a + b) := by
  simp only [rope_rotate, Real.cos_add, Real.sin_add, Prod.mk.injEq]
  constructor <;> ring

/-- A key-cache write misses every flat index whose position slot differs
from `kv_pos`. -/
theorem qkv_key_cache_miss (kc x wk : ℕ → ℝ) (bk : Option (ℕ → ℝ))
    (n kvd head_dim rotary_dim seq_len pos kvp : ℕ) (theta_log2 : ℝ) (idx : ℕ)
    (h : idx % (2 * seq_len) / 2 ≠ kvp) :
    qkv_key_cache kc x wk bk n kvd head_dim rotary_dim seq_len pos kvp theta_log2 idx =
      kc idx := by
  rw [qkv_key_cache]
  exact if_neg (fun hc => h hc.2)

/-- Read-back of `kernel_rotate_sink` at a sink pair: the cached pair of
element rows `(2·r2, 2·r2+1)` at sink position `t` is rotated by one
frequency unit. -/
theorem rotate_sink_cache_at (kc : ℕ → ℝ) (kvd head_dim seq_len rotary_dim : ℕ)
    (theta_log2 : ℝ) (r2 t b : ℕ) (hr : 2 * r2 < kvd) (ht : t < 2) (hb : b < 2)
    (hs : 2 ≤ seq_len) :
    rotate_sink_cache kc kvd head_dim 2 seq_len rotary_dim theta_log2
        (2 * seq_len * r2 + 2 * t + b) =
      (if b = 0 then
        (rope_rotate (kc (2 * seq_len * r2 + 2 * t)) (kc (2 * seq_len * r2 + 2 * t + 1))
          (rope_freq theta_log2 (2 * r2 % head_dim) rotary_dim)).1
       else
        (rope_rotate (kc (2 * seq_len * r2 + 2 * t)) (kc (2 * seq_len * r2 + 2 * t + 1))
          (rope_freq theta_log2 (2 * r2 % head_dim) rotary_dim)).2) := by
  have hoff : 2 * t + b < 2 * seq_len := by omega
  have hidx : 2 * seq_len * r2 + 2 * t + b = 2 * seq_len * r2 + (2 * t + b) := by ring
  have hdiv : (2 * seq_len * r2 + (2 * t + b)) / (2 * seq_len) = r2 :=
    strided_div (2 * seq_len) r2 (2 * t + b) hoff
  have hmod : (2 * seq_len * r2 + (2 * t + b)) % (2 * seq_len) = 2 * t + b :=
    strided_mod (2 * seq_len) r2 (2 * t + b) hoff
  have htd : (2 * t + b) / 2 = t := by omega
  have htm : (2 * t + b) % 2 = b := by omega
  rw [rotate_sink_cache, hidx]
  simp only [hdiv, hmod, htd, htm]
  rw [if_pos ⟨hr, ht⟩]

/-- `attn_norm` never touches the KV caches. -/
theorem attn_norm_key_cache (cfg : Config) (w : WeightsR) (l : ℕ) (s : RunStateR) :
    (attn_norm cfg w l s).key_cache = s.key_cache := by
  rcases harch : cfg.arch <;> simp [attn_norm, harch]

/-- `layer_post` never touches the key cache. -/
theorem layer_post_key_cache (cfg : Config) (w : WeightsR) (pos l : ℕ) (s : RunStateR) :
    (layer_post cfg w pos l s).key_cache = s.key_cache := by
  rw [layer_post]
  rcases harch : cfg.arch <;> simp [ffn_stage, attn_stage, harch]

/-- A whole layer of the multi-kernel driver leaves every sink entry of
every layer's key cache unchanged, provided the write position is past the
sinks (`kv_pos ≥ 2`). -/
theorem layer_key_sink (cfg : Config) (w : WeightsR) (pos l l2 : ℕ) (s : RunStateR)
    (hkv : 2 ≤ kv_pos cfg pos) (hsl : 2 ≤ cfg.seq_len) (r2 t b : ℕ) (ht : t < 2)
    (hb : b < 2) :
    (layer_pre cfg w pos l s).key_cache l2 (2 * cfg.seq_len * r2 + 2 * t + b) =
      s.key_cache l2 (2 * cfg.seq_len * r2 + 2 * t + b) := by
  rw [layer_pre, qkv_stage]
  simp only
  rw [attn_norm_key_cache]
  by_cases hl : l2 = l
  · rw [if_pos hl, hl]
    apply qkv_key_cache_miss
    have hoff : 2 * t + b < 2 * cfg.seq_len := by omega
    have hidx : 2 * cfg.seq_len * r2 + 2 * t + b = 2 * cfg.seq_len * r2 + (2 * t + b) := by
      ring
    rw [hidx, strided_mod (2 * cfg.seq_len) r2 (2 * t + b) hoff]
    omega
  · rw [if_neg hl]

/-- The full layer loop preserves sink entries of the key caches when
`kv_pos ≥ 2`. -/
theorem forward_layers_key_sink (cfg : Config) (w : WeightsR) (pos flags : ℕ)
    (s : RunStateR) (hkv : 2 ≤ kv_pos cfg pos) (hsl : 2 ≤ cfg.seq_len)
    (l2 r2 t b : ℕ) (ht : t < 2) (hb : b < 2) :
    (forward_layers cfg w pos flags s).key_cache l2 (2 * cfg.seq_len * r2 + 2 * t + b) =
      s.key_cache l2 (2 * cfg.seq_len * r2 + 2 * t + b) := by
  rw [forward_layers]
  generalize List.range cfg.n_layers = ls
  induction ls generalizing s with
  | nil => rfl
  | cons a ls ih =>
    rw [List.foldl_cons, ih]
    simp only
    split
    · exact layer_key_sink cfg w pos a l2 s hkv hsl r2 t b ht hb
    · rw [layer_post_key_cache]
      exact layer_key_sink cfg w pos a l2 s hkv hsl r2 t b ht hb

/-- One full forward call with `pos ≥ seq_len` (and `seq_len > 2`) rotates
every sink key pair by exactly one frequency unit and changes it in no other
way. -/
theorem forward_call_sink (cfg : Config) (w : WeightsR) (token pos flags : ℕ)
    (s : RunStateR) (hpos : cfg.seq_len ≤ pos) (hsl : 2 < cfg.seq_len)
    (l r2 t : ℕ) (hl : l < cfg.n_layers) (hr : 2 * r2 < cfg.head_dim * cfg.n_kv_heads)
    (ht : t < 2) :
    ((forward_multi cfg w token pos flags s).2.key_cache l (2 * cfg.seq_len * r2 + 2 * t),
     (forward_multi cfg w token pos flags s).2.key_cache l (2 * cfg.seq_len * r2 + 2 * t + 1)) =
      rope_rotate (s.key_cache l (2 * cfg.seq_len * r2 + 2 * t))
        (s.key_cache l (2 * cfg.seq_len * r2 + 2 * t + 1))
        (rope_freq (Real.logb 2 cfg.rope_theta) (2 * r2 % cfg.head_dim) cfg.rotary_dim) := by
  have hkv : 2 ≤ kv_pos cfg pos := by
    rw [kv_pos, kv_sink, if_pos hpos, KV_SINKS]
    omega
  have hsink : kv_sink cfg pos = 2 := by rw [kv_sink, if_pos hpos, KV_SINKS]
  have hcache : (forward_multi cfg w token pos flags s).2.key_cache =
      (forward_layers cfg w pos flags (sink_phase cfg pos (embed_stage cfg w token s))).key_cache := by
    rw [forward_multi]
    simp only
    split
    · rfl
    · rw [final_stage]
  have hread : ∀ b, b < 2 →
      (forward_layers cfg w pos flags (sink_phase cfg pos (embed_stage cfg w token s))).key_cache
          l (2 * cfg.seq_len * r2 + 2 * t + b) =
        (sink_phase cfg pos (embed_stage cfg w token s)).key_cache l
          (2 * cfg.seq_len * r2 + 2 * t + b) := by
    intro b hb
    exact forward_layers_key_sink cfg w pos flags _ hkv (by omega) l r2 t b ht hb
  have hrot : ∀ b, b < 2 →
      (sink_phase cfg pos (embed_stage cfg w token s)).key_cache l
          (2 * cfg.seq_len * r2 + 2 * t + b) =
        (if b = 0 then
          (rope_rotate (s.key_cache l (2 * cfg.seq_len * r2 + 2 * t))
            (s.key_cache l (2 * cfg.seq_len * r2 + 2 * t + 1))
            (rope_freq (Real.logb 2 cfg.rope_theta) (2 * r2 % cfg.head_dim) cfg.rotary_dim)).1
         else
          (rope_rotate (s.key_cache l (2 * cfg.seq_len * r2 + 2 * t))
            (s.key_cache l (2 * cfg.seq_len * r2 + 2 * t + 1))
            (rope_freq (Real.logb 2 cfg.rope_theta) (2 * r2 % cfg.head_dim) cfg.rotary_dim)).2) := by
    intro b hb
    rw [sink_phase, if_pos (by rw [hsink]; omega)]
    simp only
    rw [if_pos hl, hsink]
    have hemb : (embed_stage cfg w token s).key_cache = s.key_cache := rfl
    rw [hemb]
    exact rotate_sink_cache_at (s.key_cache l) (cfg.head_dim * cfg.n_kv_heads)
      cfg.head_dim cfg.seq_len cfg.rotary_dim (Real.logb 2 cfg.rope_theta) r2 t b hr ht hb
      (by omega)
  rw [Prod.ext_iff]
  constructor
  · rw [hcache]
    have h0 : 2 * cfg.seq_len * r2 + 2 * t = 2 * cfg.seq_len * r2 + 2 * t + 0 := by ring
    rw [h0, hread 0 (by omega), hrot 0 (by omega)]
    simp
  · rw [hcache, hread 1 (by omega), hrot 1 (by omega)]
    simp

/-- A sequence of forward calls, threading the run state
(`(token, pos, flags)` per call). -/
noncomputable def run_calls (cfg : Config) (w : WeightsR)
    (calls : List (ℕ × ℕ × ℕ)) (s : RunStateR) : RunStateR :=
  calls.foldl (fun st c => (forward_multi cfg w c.1 c.2.1 c.2.2 st).2) s

/-- C7.  Sink rotation: after `k` forward calls, each with `pos ≥ Smax`, all
cached sink key pairs (positions 0 and 1, every layer) have been rotated by
exactly `k` freq-units of rotary frequency relative to their original
values; and a call with `pos < Smax` performs no sink rotation at all (the
rotation phase is the identity). -/
theorem c7_sink_rotation (cfg : Config) (w : WeightsR) (calls : List (ℕ × ℕ × ℕ))
    (s : RunStateR) (hsl : 2 < cfg.seq_len)
    (hall : ∀ c ∈ calls, cfg.seq_len ≤ c.2.1)
    (l r2 t : ℕ) (hl : l < cfg.n_layers) (hr : 2 * r2 < cfg.head_dim * cfg.n_kv_heads)
    (ht : t < 2) :
    ((run_calls cfg w calls s).key_cache l (2 * cfg.seq_len * r2 + 2 * t),
     (run_calls cfg w calls s).key_cache l (2 * cfg.seq_len * r2 + 2 * t + 1)) =
      rope_rotate (s.key_cache l (2 * cfg.seq_len * r2 + 2 * t))
        (s.key_cache l (2 * cfg.seq_len * r2 + 2 * t + 1))
        ((calls.length : ℝ) *
          rope_freq (Real.logb 2 cfg.rope_theta) (2 * r2 % cfg.head_dim) cfg.rotary_dim) ∧
    (∀ pos s2, pos < cfg.seq_len → sink_phase cfg pos s2 = s2) := by
  constructor
  · induction calls generalizing s with
    | nil =>
      simp only [run_calls, List.foldl_nil, List.length_nil, Nat.cast_zero, zero_mul]
      rw [rope_rotate_zero]
    | cons c cs ih =>
      have hstep := forward_call_sink cfg w c.1 c.2.1 c.2.2 s
        (hall c (List.mem_cons_self c cs)) hsl l r2 t hl hr ht
      have hrun : run_calls cfg w (c :: cs) s =
          run_calls cfg w cs ((forward_multi cfg w c.1 c.2.1 c.2.2 s).2) := rfl
      have h1 : (forward_multi cfg w c.1 c.2.1 c.2.2 s).2.key_cache l
            (2 * cfg.seq_len * r2 + 2 * t) =
          (rope_rotate (s.key_cache l (2 * cfg.seq_len * r2 + 2 * t))
            (s.key_cache l (2 * cfg.seq_len * r2 + 2 * t + 1))
            (rope_freq (Real.logb 2 cfg.rope_theta) (2 * r2 % cfg.head_dim)
              cfg.rotary_dim)).1 :=
        congrArg Prod.fst hstep
      have h2 : (forward_multi cfg w c.1 c.2.1 c.2.2 s).2.key_cache l
            (2 * cfg.seq_len * r2 + 2 * t + 1) =
          (rope_rotate (s.key_cache l (2 * cfg.seq_len * r2 + 2 * t))
            (s.key_cache l (2 * cfg.seq_len * r2 + 2 * t + 1))
            (rope_freq (Real.logb 2 cfg.rope_theta) (2 * r2 % cfg.head_dim)
              cfg.rotary_dim)).2 :=
        congrArg Prod.snd hstep
      rw [hrun, ih ((forward_multi cfg w c.1 c.2.1 c.2.2 s).2)
        (fun c2 hc2 => hall c2 (List.mem_cons_of_mem c hc2))]
      rw [h1, h2, rope_rotate_compose]
      congr 1
      simp only [List.length_cons, Nat.cast_succ]
      ring
  · intro pos s2 hpos
    rw [sink_phase, if_neg]
    rw [kv_sink, if_neg (by omega)]
    omega

/-- Witness for C7 at concrete inputs: a call at `pos = 0 < seq_len` performs
no sink rotation. -/
theorem c7_sink_rotation_witness :
    sink_phase tinyConfig 0 zeroState = zeroState :=
  (c7_sink_rotation tinyConfig zeroWeights [] zeroState (by decide) (by simp) 0 0 0
    (by decide) (by decide) (by decide)).2 0 zeroState (by decide)

/-! ## The cooperative fused driver (`kernel_fused_coop` + `forwardcoop`,
infer.cu 878-1179) -/

/-- The cooperative QKV phase, Q part (infer.cu 913-928): like
`kernel_matmul_rope_qkv` but the matmul runs against the *unscaled* RMSNorm
products and the scale is multiplied into each matmul result; no biases. -/
noncomputable def coop_qkv_q (q xb wq : ℕ → ℝ) (scale : ℝ)
    (n d head_dim rotary_dim pos : ℕ) (theta_log2 : ℝ) : ℕ → ℝ :=
  fun e =>
    if e < d then
      let j := 2 * (e / 2)
      let ang := (pos : ℝ) * rope_freq theta_log2 (j % head_dim) rotary_dim
      let r := rope_rotate (matmul_warppar xb wq j n * scale)
        (matmul_warppar xb wq (j + 1) n * scale) ang
      if e % 2 = 0 then r.1 else r.2
    else q e

/-- The cooperative QKV phase, K part (infer.cu 929-932): same transposed
key-cache layout as the multi-kernel path. -/
noncomputable def coop_qkv_key_cache (kc xb wk : ℕ → ℝ) (scale : ℝ)
    (n kvd head_dim rotary_dim seq_len pos kv_posa : ℕ) (theta_log2 : ℝ) : ℕ → ℝ :=
  fun idx =>
    let j := 2 * (idx / (2 * seq_len))
    let off := idx % (2 * seq_len)
    if j < kvd ∧ off / 2 = kv_posa then
      let ang := (pos : ℝ) * rope_freq theta_log2 (j % head_dim) rotary_dim
      let r := rope_rotate (matmul_warppar xb wk j n * scale)
        (matmul_warppar xb wk (j + 1) n * scale) ang
      if off % 2 = 0 then r.1 else r.2
    else kc idx

/-- The cooperative QKV phase, V part (infer.cu 933-936): unrotated, same
transposed value-cache layout. -/
noncomputable def coop_qkv_value_cache (vc xb wv : ℕ → ℝ) (scale : ℝ)
    (n kvd seq_len kv_posa : ℕ) : ℕ → ℝ :=
  fun idx =>
    let r := idx / seq_len
    let t := idx % seq_len
    if r < kvd ∧ t = kv_posa then matmul_warppar xb wv r n * scale else vc idx

/-- The cooperative FFN phase (infer.cu 1035-1058): a unified expert loop.
`hbuf[j] = act(w1[je]·xb·scale) · (w3[je]·xb·scale)` for `j < hidden·ac`,
`je = j%hidden + expert(j/hidden)·hidden`; then
`x[i] += Σ_{e<ac} (w2[i + expert(e)·dim] · hbuf_e) · weight(e)` (the
`atomicAdd` accumulations commute over exact reals). -/
noncomputable def coop_ffn_hb (hb xb w1 w3 : ℕ → ℝ) (scale : ℝ) (act_gelu : Bool)
    (experts_of : ℕ → ℕ) (n d ac : ℕ) : ℕ → ℝ :=
  fun j => if j < d * ac then
    (if act_gelu then gelu (matmul_warppar xb w1 (j % d + experts_of (j / d) * d) n * scale)
     else silu (matmul_warppar xb w1 (j % d + experts_of (j / d) * d) n * scale)) *
      (matmul_warppar xb w3 (j % d + experts_of (j / d) * d) n * scale)
  else hb j

/-- The cooperative FFN down-projection phase (infer.cu 1050-1058). -/
noncomputable def coop_ffn_down (x hbuf w2 : ℕ → ℝ) (experts_of : ℕ → ℕ)
    (weights_of : ℕ → ℝ) (n d ac : ℕ) : ℕ → ℝ :=
  fun i => if i < d then
    x i + ∑ e ∈ Finset.range ac,
      matmul_warppar (fun jj => hbuf (e * n + jj)) w2 (i + experts_of e * d) n * weights_of e
  else x i

/-- One layer of the cooperative fused kernel (infer.cu 894-1061).
`ac`, `act_gelu` and `use_he` mirror the `CoopArgs` the driver builds
(infer.cu 1129-1161): `ac = n_experts_ac` for Mixtral else 1, `act_gelu`
for Gemma, and the hidden buffer is `he` for Mixtral else `hb`.  The MoE
gate phase (infer.cu 1016-1030) only runs when `n_experts ≠ 0`; otherwise
the `moe_weights`/`moe_experts` regions keep the dummy contents written by
`prepare_cuda`. -/
noncomputable def coop_layer (cfg : Config) (w : WeightsR) (pos l ac : ℕ)
    (act_gelu use_he : Bool) (s : RunStateR) : RunStateR :=
  let q_dim := cfg.head_dim * cfg.n_heads
  let kv_dim := cfg.head_dim * cfg.n_kv_heads
  let kv_mul := cfg.n_heads / cfg.n_kv_heads
  let kvp := kv_pos cfg pos
  let kvl := kv_len cfg pos
  let th := Real.logb 2 cfg.rope_theta
  -- pre-attention rmsnorm (infer.cu 897-904): unscaled products plus scale
  let scale1 := rms_scale s.x cfg.dim cfg.norm_eps
  let xb1 : ℕ → ℝ := fun j => if j < cfg.dim then s.x j * w.rms_att_weight l j else s.xb j
  -- qkv + rope + kv write (infer.cu 912-939)
  let q1 := coop_qkv_q s.q xb1 (w.wq l) scale1 cfg.dim q_dim cfg.head_dim cfg.rotary_dim pos th
  let kc1 := coop_qkv_key_cache (s.key_cache l) xb1 (w.wk l) scale1 cfg.dim kv_dim
    cfg.head_dim cfg.rotary_dim cfg.seq_len pos kvp th
  let vc1 := coop_qkv_value_cache (s.value_cache l) xb1 (w.wv l) scale1 cfg.dim kv_dim
    cfg.seq_len kvp
  -- attention score / softmax / mix (infer.cu 943-990)
  let att1 := att_after_score s.att q1 kc1 cfg.n_heads cfg.head_dim cfg.seq_len kv_mul kvl
  let att2 := att_after_softmax att1 cfg.n_heads cfg.seq_len kvl
  let q2 := q_after_mix q1 att2 vc1 cfg.n_heads cfg.head_dim cfg.seq_len kv_mul kvl
  -- attention output (infer.cu 994-1001)
  let x2 : ℕ → ℝ := fun i => if i < cfg.dim then s.x i + matmul_warppar q2 (w.wo l) i q_dim
    else s.x i
  -- post-attention rmsnorm and moe gate (infer.cu 1008-1031)
  let scale2 := rms_scale x2 cfg.dim cfg.norm_eps
  let xb2 : ℕ → ℝ := fun j => if j < cfg.dim then x2 j * w.rms_ffn_weight l j else xb1 j
  let gr := if cfg.n_experts ≠ 0 then
      moe_gate_result s.moe_weights s.moe_experts
        (fun j => moe_gate_logits xb2 (w.moegate l) cfg.dim j * scale2)
        cfg.n_experts cfg.n_experts_ac
    else (s.moe_weights, s.moe_experts)
  -- expert FFN (infer.cu 1035-1058)
  let hbuf_old := if use_he then s.he else s.hb
  let hbuf := coop_ffn_hb hbuf_old xb2 (w.w1 l) (w.w3 l) scale2 act_gelu gr.2
    cfg.dim cfg.hidden_dim ac
  let x3 := coop_ffn_down x2 hbuf (w.w2 l) gr.2 gr.1 cfg.hidden_dim cfg.dim ac
  { s with
    x := x3,
    xb := xb2,
    q := q2,
    att := att2,
    moe_weights := gr.1,
    moe_experts := gr.2,
    hb := if use_he then s.hb else hbuf,
    he := if use_he then hbuf else s.he,
    key_cache := fun l2 => if l2 = l then kc1 else s.key_cache l2,
    value_cache := fun l2 => if l2 = l then vc1 else s.value_cache l2 }

/-- The cooperative forward driver `forwardcoop<T, KVT>` (infer.cu
1085-1179): embedding, sink rotation, one fused cooperative kernel running
*all* layers in full (there is no UPDATE_KV_ONLY break inside the fused
kernel), then — unless flag bit 0 is set — the fused output kernel
`kernel_output` (final RMSNorm + classifier, no classifier bias).
Asserts `arch ∈ {LlamaLike, Mixtral, Gemma}` (infer.cu 1091). -/
noncomputable def forward_coop (cfg : Config) (w : WeightsR) (token pos flags : ℕ)
    (s : RunStateR) : Option (ℕ → ℝ) × RunStateR :=
  let s1 := embed_stage cfg w token s
  let s2 := sink_phase cfg pos s1
  let ac := if cfg.arch = Arch.Mixtral then cfg.n_experts_ac else 1
  let use_he := cfg.arch = Arch.Mixtral
  let act_gelu := cfg.arch = Arch.Gemma
  let s3 := (List.range cfg.n_layers).foldl
    (fun st l => coop_layer cfg w pos l ac act_gelu use_he st) s2
  if flags % 2 = 1 then (none, s3)
  else
    let scale := rms_scale s3.x cfg.dim cfg.norm_eps
    (some (fun i => matmul_warppar (fun j => s3.x j * w.rms_final_weight j) w.wcls i cfg.dim
      * scale), s3)

/-! ## Bridges between the two drivers' formulations -/

/-- A matmul over `n` inner elements only reads the first `n` entries of the
input vector. -/
theorem matmul_ite (x alt w : ℕ → ℝ) (i n : ℕ) :
    matmul_warppar (fun j => if j < n then x j else alt j) w i n =
      matmul_warppar x w i n := by
  refine Finset.sum_congr rfl ?_
  intro j hj
  have hjn := Finset.mem_range.mp hj
  simp [hjn]

/-- A matmul is linear in a scalar factored out of the input vector. -/
theorem matmul_warppar_smul (x w : ℕ → ℝ) (c : ℝ) (i n : ℕ) :
    matmul_warppar (fun j => x j * c) w i n = matmul_warppar x w i n * c := by
  rw [matmul_warppar, matmul_warppar, Finset.sum_mul]
  exact Finset.sum_congr rfl (fun j _ => by ring)

/-- The central algebraic fact behind the multi-kernel/cooperative
equivalence: the multi-kernel path normalizes the input first
(`xb[j] = x[j]·g[j]·scale`) while the cooperative path stores the unscaled
products and multiplies each matmul result by the scale
(infer.cu 869, 917-918); over exact reals the two agree. -/
theorem norm_matmul_bridge (x g a1 a2 w : ℕ → ℝ) (scale : ℝ) (k n : ℕ) :
    matmul_warppar (fun j => if j < n then x j * g j * scale else a1 j) w k n =
      matmul_warppar (fun j => if j < n then x j * g j else a2 j) w k n * scale := by
  rw [matmul_ite (fun j => x j * g j * scale) a1 w k n,
    matmul_ite (fun j => x j * g j) a2 w k n]
  exact matmul_warppar_smul (fun j => x j * g j) w scale k n

/-- Contents of the dummy `exp` buffer uploaded by `prepare_cuda` for dense
models (infer.cu 103-108, `float expdummy[] = { 1.0f, 0 }`): the
`moe_weights` region holds 1.0 in slot 0 and the `moe_experts` region holds
expert index 0 (the float `0` bit pattern reinterpreted as `int` is 0). -/
noncomputable def exp_dummy_weights : ℕ → ℝ := fun k => if k = 0 then 1 else 0

/-- Expert-index region of the dummy `exp` buffer: index 0. -/
def exp_dummy_experts : ℕ → ℕ := fun _ => 0

/-- The spec's standard gated FFN (`x += W2·(act(W1·xb̃) ⊙ (W3·xb̃))` for the
normalized input `xb̃`), stated directly from the spec's formula as the
refinement target. -/
noncomputable def gated_ffn_spec (x xbn w1f w2f w3f : ℕ → ℝ) (act : ℝ → ℝ)
    (dim hidden : ℕ) : ℕ → ℝ :=
  fun i => if i < dim then
    x i + matmul_warppar
      (fun j => act (matmul_warppar xbn w1f j dim) * matmul_warppar xbn w3f j dim)
      w2f i hidden
  else x i

/-- C10.  In the cooperative fused path, a non-MoE architecture runs as a
mixture with exactly one active expert of gate weight 1.0 and expert index 0
(the dummy buffer from `prepare_cuda`), and the unified expert FFN loop then
computes exactly the standard gated FFN `x += W2·(act(W1·xb̃) ⊙ (W3·xb̃))`. -/
theorem c10_dense_coop_ffn (x hbb xb w1f w2f w3f : ℕ → ℝ) (scale : ℝ)
    (act_gelu : Bool) (dim hidden : ℕ) :
    exp_dummy_weights 0 = 1 ∧ exp_dummy_experts 0 = 0 ∧
    coop_ffn_down x
        (coop_ffn_hb hbb xb w1f w3f scale act_gelu exp_dummy_experts dim hidden 1)
        w2f exp_dummy_experts exp_dummy_weights hidden dim 1 =
      gated_ffn_spec x (fun j => xb j * scale) w1f w2f w3f
        (if act_gelu then gelu else silu) dim hidden := by
  refine ⟨rfl, rfl, ?_⟩
  have hbuf_eq : ∀ j, j < hidden →
      coop_ffn_hb hbb xb w1f w3f scale act_gelu exp_dummy_experts dim hidden 1 j =
        (if act_gelu then gelu else silu)
            (matmul_warppar (fun j2 => xb j2 * scale) w1f j dim) *
          matmul_warppar (fun j2 => xb j2 * scale) w3f j dim := by
    intro j hjh
    have hjh1 : j < hidden * 1 := by omega
    have hjm : j % hidden = j := Nat.mod_eq_of_lt hjh
    simp only [coop_ffn_hb, if_pos hjh1, exp_dummy_experts, Nat.zero_mul,
      Nat.add_zero, hjm]
    rw [matmul_warppar_smul xb w1f scale j dim, matmul_warppar_smul xb w3f scale j dim]
    by_cases hg : act_gelu <;> simp [hg]
  funext i
  by_cases hi : i < dim
  · simp only [coop_ffn_down, gated_ffn_spec, if_pos hi, Finset.sum_range_one]
    have h2 : matmul_warppar
          (fun jj => coop_ffn_hb hbb xb w1f w3f scale act_gelu exp_dummy_experts
            dim hidden 1 (0 * hidden + jj)) w2f (i + exp_dummy_experts 0 * dim) hidden *
          exp_dummy_weights 0 =
        matmul_warppar (fun j =>
          (if act_gelu then gelu else silu)
              (matmul_warppar (fun j2 => xb j2 * scale) w1f j dim) *
            matmul_warppar (fun j2 => xb j2 * scale) w3f j dim) w2f i hidden := by
      have hwt : exp_dummy_weights 0 = 1 := rfl
      have hex : exp_dummy_experts 0 = 0 := rfl
      rw [hwt, hex, mul_one]
      simp only [Nat.zero_mul, Nat.zero_add, Nat.add_zero]
      simp only [matmul_warppar]
      refine Finset.sum_congr rfl ?_
      intro j hj
      have hjh := Finset.mem_range.mp hj
      simp only [hbuf_eq j hjh, matmul_warppar]
    rw [h2]
  · simp only [coop_ffn_down, gated_ffn_spec, if_neg hi]

/-! ### Alt-normalization: every kernel reads its input vector only below the
inner dimension, so the unwritten tail of the buffer feeding it is
irrelevant.  These lemmas rewrite the tail to 0 so that the two drivers'
terms become syntactically comparable. -/

theorem matmul_alt (v a w : ℕ → ℝ) (k n : ℕ) :
    matmul_warppar (fun j => if j < n then v j else a j) w k n =
      matmul_warppar (fun j => if j < n then v j else 0) w k n := by
  rw [matmul_ite v a w k n, matmul_ite v (fun _ => 0) w k n]

theorem qkv_q_alt (qb v a wf : ℕ → ℝ) (b : Option (ℕ → ℝ)) (n d hd rd pos : ℕ) (th : ℝ) :
    qkv_q qb (fun j => if j < n then v j else a j) wf b n d hd rd pos th =
      qkv_q qb (fun j => if j < n then v j else 0) wf b n d hd rd pos th := by
  funext e
  simp only [qkv_q, qkv_val, matmul_alt v a wf (2 * (e / 2)) n,
    matmul_alt v a wf (2 * (e / 2) + 1) n]

theorem coop_qkv_q_alt (qb v a wf : ℕ → ℝ) (scale : ℝ) (n d hd rd pos : ℕ) (th : ℝ) :
    coop_qkv_q qb (fun j => if j < n then v j else a j) wf scale n d hd rd pos th =
      coop_qkv_q qb (fun j => if j < n then v j else 0) wf scale n d hd rd pos th := by
  funext e
  simp only [coop_qkv_q, matmul_alt v a wf (2 * (e / 2)) n,
    matmul_alt v a wf (2 * (e / 2) + 1) n]

theorem qkv_key_cache_alt (kc v a wf : ℕ → ℝ) (b : Option (ℕ → ℝ))
    (n kvd hd rd sl pos kvp : ℕ) (th : ℝ) :
    qkv_key_cache kc (fun j => if j < n then v j else a j) wf b n kvd hd rd sl pos kvp th =
      qkv_key_cache kc (fun j => if j < n then v j else 0) wf b n kvd hd rd sl pos kvp th := by
  funext idx
  simp only [qkv_key_cache, qkv_val, matmul_alt v a wf (2 * (idx / (2 * sl))) n,
    matmul_alt v a wf (2 * (idx / (2 * sl)) + 1) n]

theorem coop_qkv_key_cache_alt (kc v a wf : ℕ → ℝ) (scale : ℝ)
    (n kvd hd rd sl pos kvp : ℕ) (th : ℝ) :
    coop_qkv_key_cache kc (fun j => if j < n then v j else a j) wf scale n kvd hd rd sl pos kvp th =
      coop_qkv_key_cache kc (fun j => if j < n then v j else 0) wf scale n kvd hd rd sl pos kvp th := by
  funext idx
  simp only [coop_qkv_key_cache, matmul_alt v a wf (2 * (idx / (2 * sl))) n,
    matmul_alt v a wf (2 * (idx / (2 * sl)) + 1) n]

theorem qkv_value_cache_alt (vc v a wf : ℕ → ℝ) (b : Option (ℕ → ℝ))
    (n kvd sl kvp : ℕ) :
    qkv_value_cache vc (fun j => if j < n then v j else a j) wf b n kvd sl kvp =
      qkv_value_cache vc (fun j => if j < n then v j else 0) wf b n kvd sl kvp := by
  funext idx
  simp only [qkv_value_cache, qkv_val, matmul_alt v a wf (idx / sl) n]

theorem coop_qkv_value_cache_alt (vc v a wf : ℕ → ℝ) (scale : ℝ) (n kvd sl kvp : ℕ) :
    coop_qkv_value_cache vc (fun j => if j < n then v j else a j) wf scale n kvd sl kvp =
      coop_qkv_value_cache vc (fun j => if j < n then v j else 0) wf scale n kvd sl kvp := by
  funext idx
  simp only [coop_qkv_value_cache, matmul_alt v a wf (idx / sl) n]

theorem ffn13_alt (hbf v a w1f w3f : ℕ → ℝ) (act : ℝ → ℝ) (n d : ℕ) :
    ffn13 hbf (fun j => if j < n then v j else a j) w1f w3f act n d =
      ffn13 hbf (fun j => if j < n then v j else 0) w1f w3f act n d := by
  funext i
  simp only [ffn13, matmul_alt v a w1f i n, matmul_alt v a w3f i n]

theorem coop_ffn_hb_alt (hbf v a w1f w3f : ℕ → ℝ) (scale : ℝ) (ag : Bool)
    (eof : ℕ → ℕ) (n d ac : ℕ) :
    coop_ffn_hb hbf (fun j => if j < n then v j else a j) w1f w3f scale ag eof n d ac =
      coop_ffn_hb hbf (fun j => if j < n then v j else 0) w1f w3f scale ag eof n d ac := by
  funext j
  simp only [coop_ffn_hb, matmul_alt v a w1f (j % d + eof (j / d) * d) n,
    matmul_alt v a w3f (j % d + eof (j / d) * d) n]

theorem moe_he_alt (hef v a w1f w3f : ℕ → ℝ) (eof : ℕ → ℕ) (n d ac : ℕ) :
    moe_he hef (fun j => if j < n then v j else a j) w1f w3f eof n d ac =
      moe_he hef (fun j => if j < n then v j else 0) w1f w3f eof n d ac := by
  funext j
  simp only [moe_he, matmul_alt v a w1f (j % d + eof (j / d) * d) n,
    matmul_alt v a w3f (j % d + eof (j / d) * d) n]

theorem moe_gate_logits_alt (v a mg : ℕ → ℝ) (n : ℕ) :
    moe_gate_logits (fun j => if j < n then v j else a j) mg n =
      moe_gate_logits (fun j => if j < n then v j else 0) mg n := by
  funext j
  simp only [moe_gate_logits, matmul_alt v a mg j n]

/-! ### Zero-alt bridges: after alt-normalization, the multi-kernel stage
terms rewrite into the cooperative stage terms (the RMS scale moves from the
normalized input into the matmul results). -/

theorem qkv_q_bridge (qb x g wqf : ℕ → ℝ) (scale : ℝ) (n d hd rd pos : ℕ) (th : ℝ) :
    qkv_q qb (fun j => if j < n then x j * g j * scale else 0) wqf none n d hd rd pos th =
      coop_qkv_q qb (fun j => if j < n then x j * g j else 0) wqf scale n d hd rd pos th := by
  funext e
  by_cases he : e < d
  · simp only [qkv_q, coop_qkv_q, if_pos he, qkv_val,
      norm_matmul_bridge x g (fun _ => 0) (fun _ => 0) wqf scale (2 * (e / 2)) n,
      norm_matmul_bridge x g (fun _ => 0) (fun _ => 0) wqf scale (2 * (e / 2) + 1) n,
      add_zero]
  · simp only [qkv_q, coop_qkv_q, if_neg he]

theorem qkv_key_bridge (kc x g wkf : ℕ → ℝ) (scale : ℝ)
    (n kvd hd rd sl pos kvp : ℕ) (th : ℝ) :
    qkv_key_cache kc (fun j => if j < n then x j * g j * scale else 0) wkf none
        n kvd hd rd sl pos kvp th =
      coop_qkv_key_cache kc (fun j => if j < n then x j * g j else 0) wkf scale
        n kvd hd rd sl pos kvp th := by
  funext idx
  simp only [qkv_key_cache, coop_qkv_key_cache, qkv_val,
    norm_matmul_bridge x g (fun _ => 0) (fun _ => 0) wkf scale (2 * (idx / (2 * sl))) n,
    norm_matmul_bridge x g (fun _ => 0) (fun _ => 0) wkf scale (2 * (idx / (2 * sl)) + 1) n,
    add_zero]

theorem qkv_value_bridge (vc x g wvf : ℕ → ℝ) (scale : ℝ) (n kvd sl kvp : ℕ) :
    qkv_value_cache vc (fun j => if j < n then x j * g j * scale else 0) wvf none
        n kvd sl kvp =
      coop_qkv_value_cache vc (fun j => if j < n then x j * g j else 0) wvf scale
        n kvd sl kvp := by
  funext idx
  simp only [qkv_value_cache, coop_qkv_value_cache, qkv_val,
    norm_matmul_bridge x g (fun _ => 0) (fun _ => 0) wvf scale (idx / sl) n, add_zero]

theorem ffn_hb_bridge_silu (hbf x g w1f w3f : ℕ → ℝ) (scale : ℝ) (n d : ℕ) :
    ffn13 hbf (fun j => if j < n then x j * g j * scale else 0) w1f w3f silu n d =
      coop_ffn_hb hbf (fun j => if j < n then x j * g j else 0) w1f w3f scale false
        exp_dummy_experts n d 1 := by
  funext i
  by_cases hi : i < d
  · have hi1 : i < d * 1 := by omega
    have him : i % d = i := Nat.mod_eq_of_lt hi
    simp only [ffn13, coop_ffn_hb, if_pos hi, if_pos hi1, exp_dummy_experts,
      Nat.zero_mul, Nat.add_zero, him,
      norm_matmul_bridge x g (fun _ => 0) (fun _ => 0) w1f scale i n,
      norm_matmul_bridge x g (fun _ => 0) (fun _ => 0) w3f scale i n]
    simp
  · have hi1 : ¬ i < d * 1 := by omega
    simp only [ffn13, coop_ffn_hb, if_neg hi, if_neg hi1]

theorem ffn_hb_bridge_gelu (hbf x g w1f w3f : ℕ → ℝ) (scale : ℝ) (n d : ℕ) :
    ffn13 hbf (fun j => if j < n then x j * g j * scale else 0) w1f w3f gelu n d =
      coop_ffn_hb hbf (fun j => if j < n then x j * g j else 0) w1f w3f scale true
        exp_dummy_experts n d 1 := by
  funext i
  by_cases hi : i < d
  · have hi1 : i < d * 1 := by omega
    have him : i % d = i := Nat.mod_eq_of_lt hi
    simp only [ffn13, coop_ffn_hb, if_pos hi, if_pos hi1, exp_dummy_experts,
      Nat.zero_mul, Nat.add_zero, him,
      norm_matmul_bridge x g (fun _ => 0) (fun _ => 0) w1f scale i n,
      norm_matmul_bridge x g (fun _ => 0) (fun _ => 0) w3f scale i n]
    simp
  · have hi1 : ¬ i < d * 1 := by omega
    simp only [ffn13, coop_ffn_hb, if_neg hi, if_neg hi1]

theorem ffn_down_bridge (x hbf w2f : ℕ → ℝ) (n d : ℕ) :
    ffn2 x hbf w2f x n d =
      coop_ffn_down x hbf w2f exp_dummy_experts exp_dummy_weights n d 1 := by
  funext i
  by_cases hi : i < d
  · simp only [ffn2, coop_ffn_down, if_pos hi, Finset.sum_range_one,
      exp_dummy_experts, exp_dummy_weights, Nat.zero_mul, Nat.add_zero, Nat.zero_add]
    simp [add_comm]
  · simp only [ffn2, coop_ffn_down, if_neg hi]

theorem moe_he_bridge (hef x g w1f w3f : ℕ → ℝ) (eof : ℕ → ℕ) (scale : ℝ)
    (n d ac : ℕ) :
    moe_he hef (fun j => if j < n then x j * g j * scale else 0) w1f w3f eof n d ac =
      coop_ffn_hb hef (fun j => if j < n then x j * g j else 0) w1f w3f scale false
        eof n d ac := by
  funext j
  by_cases hj : j < d * ac
  · simp only [moe_he, coop_ffn_hb, if_pos hj,
      norm_matmul_bridge x g (fun _ => 0) (fun _ => 0) w1f scale (j % d + eof (j / d) * d) n,
      norm_matmul_bridge x g (fun _ => 0) (fun _ => 0) w3f scale (j % d + eof (j / d) * d) n]
    simp
  · simp only [moe_he, coop_ffn_hb, if_neg hj]

theorem moe_down_bridge (x he w2f : ℕ → ℝ) (eof : ℕ → ℕ) (wof : ℕ → ℝ)
    (n d ac : ℕ) :
    moe_down x he w2f eof wof n d ac = coop_ffn_down x he w2f eof wof n d ac := rfl

theorem gate_logits_bridge (x g mg : ℕ → ℝ) (scale : ℝ) (n : ℕ) :
    moe_gate_logits (fun j => if j < n then x j * g j * scale else 0) mg n =
      fun j => moe_gate_logits (fun j2 => if j2 < n then x j2 * g j2 else 0) mg n j
        * scale := by
  funext j
  exact norm_matmul_bridge x g (fun _ => 0) (fun _ => 0) mg scale j n

theorem kernel_rmsnorm_eq (o x w : ℕ → ℝ) (n : ℕ) (e : ℝ) :
    kernel_rmsnorm o x w n e =
      fun j => if j < n then x j * w j * rms_scale x n e else o j := rfl

/-- Equality of all run-state fields except `xb` (the two drivers keep the
normalized vector in different forms in `xb`; it is fully rewritten before
every use in both). -/
def StateEqC (s1 s2 : RunStateR) : Prop :=
  s1.x = s2.x ∧ s1.xa = s2.xa ∧ s1.hb = s2.hb ∧ s1.he = s2.he ∧ s1.q = s2.q ∧
  s1.att = s2.att ∧ s1.moe_weights = s2.moe_weights ∧ s1.moe_experts = s2.moe_experts ∧
  s1.key_cache = s2.key_cache ∧ s1.value_cache = s2.value_cache

/-- One dense layer (LlamaLike or Gemma): the multi-kernel layer and the
cooperative layer produce related states. -/
theorem layer_equiv_dense (cfg : Config) (w : WeightsR) (pos l : ℕ) (ag : Bool)
    (s1 s2 : RunStateR)
    (harch : (cfg.arch = Arch.LlamaLike ∧ ag = false) ∨ (cfg.arch = Arch.Gemma ∧ ag = true))
    (hbq : w.bq l = none) (hbk : w.bk l = none) (hbv : w.bv l = none)
    (hexp : cfg.n_experts = 0)
    (hdw : s1.moe_weights = exp_dummy_weights) (hde : s1.moe_experts = exp_dummy_experts)
    (hst : StateEqC s1 s2) :
    StateEqC (layer_post cfg w pos l (layer_pre cfg w pos l s1))
      (coop_layer cfg w pos l 1 ag false s2) := by
  obtain ⟨hx, hxa, hhb, hhe, hq, hatt, hmw, hme, hkc, hvc⟩ := hst
  have hW2 : s2.moe_weights = exp_dummy_weights := by rw [← hmw, hdw]
  have hE2 : s2.moe_experts = exp_dummy_experts := by rw [← hme, hde]
  rcases harch with ⟨ha, hag⟩ | ⟨ha, hag⟩ <;> subst hag
  · have hact : (if Arch.LlamaLike = Arch.Gemma then gelu else silu) = silu := by
      simp
    refine ⟨?_, ?_, ?_, ?_, ?_, ?_, ?_, ?_, ?_, ?_⟩ <;>
      simp only [layer_post, layer_pre, ffn_stage, attn_stage, attn_norm, qkv_stage,
        coop_layer, ha, kernel_rmsnorm_eq, hbq, hbk, hbv, hexp, hact, if_true,
        ne_eq, not_true_eq_false, if_false, Bool.false_eq_true,
        qkv_q_alt, coop_qkv_q_alt, qkv_key_cache_alt, coop_qkv_key_cache_alt,
        qkv_value_cache_alt, coop_qkv_value_cache_alt, ffn13_alt, coop_ffn_hb_alt,
        moe_he_alt, moe_gate_logits_alt,
        qkv_q_bridge, qkv_key_bridge, qkv_value_bridge, ffn_hb_bridge_silu,
        ffn_down_bridge, hx, hq, hatt, hkc, hvc, hhb, hhe, hxa, hmw, hme, hW2, hE2]
  · have hact : (if Arch.Gemma = Arch.Gemma then gelu else silu) = gelu := by
      simp
    refine ⟨?_, ?_, ?_, ?_, ?_, ?_, ?_, ?_, ?_, ?_⟩ <;>
      simp only [layer_post, layer_pre, ffn_stage, attn_stage, attn_norm, qkv_stage,
        coop_layer, ha, kernel_rmsnorm_eq, hbq, hbk, hbv, hexp, hact, if_true,
        ne_eq, not_true_eq_false, if_false, Bool.false_eq_true,
        qkv_q_alt, coop_qkv_q_alt, qkv_key_cache_alt, coop_qkv_key_cache_alt,
        qkv_value_cache_alt, coop_qkv_value_cache_alt, ffn13_alt, coop_ffn_hb_alt,
        moe_he_alt, moe_gate_logits_alt,
        qkv_q_bridge, qkv_key_bridge, qkv_value_bridge, ffn_hb_bridge_gelu,
        ffn_down_bridge, hx, hq, hatt, hkc, hvc, hhb, hhe, hxa, hmw, hme, hW2, hE2]

/-- One Mixtral layer: the multi-kernel layer and the cooperative layer
produce related states (`ac = n_experts_ac`, SiLU activation, `he` buffer). -/
theorem layer_equiv_mixtral (cfg : Config) (w : WeightsR) (pos l : ℕ)
    (s1 s2 : RunStateR)
    (ha : cfg.arch = Arch.Mixtral)
    (hbq : w.bq l = none) (hbk : w.bk l = none) (hbv : w.bv l = none)
    (hexp : cfg.n_experts ≠ 0)
    (hst : StateEqC s1 s2) :
    StateEqC (layer_post cfg w pos l (layer_pre cfg w pos l s1))
      (coop_layer cfg w pos l cfg.n_experts_ac false true s2) := by
  obtain ⟨hx, hxa, hhb, hhe, hq, hatt, hmw, hme, hkc, hvc⟩ := hst
  refine ⟨?_, ?_, ?_, ?_, ?_, ?_, ?_, ?_, ?_, ?_⟩ <;>
    simp only [layer_post, layer_pre, ffn_stage, attn_stage, attn_norm, qkv_stage,
      coop_layer, ha, kernel_rmsnorm_eq, hbq, hbk, hbv, hexp, ne_eq,
      not_false_eq_true, if_true, eq_self_iff_true,
      qkv_q_alt, coop_qkv_q_alt, qkv_key_cache_alt, coop_qkv_key_cache_alt,
      qkv_value_cache_alt, coop_qkv_value_cache_alt, coop_ffn_hb_alt,
      moe_he_alt, moe_gate_logits_alt,
      qkv_q_bridge, qkv_key_bridge, qkv_value_bridge,
      gate_logits_bridge, moe_he_bridge, moe_down_bridge,
      hx, hq, hatt, hkc, hvc, hhb, hhe, hxa, hmw, hme]

theorem StateEqC_refl (s : RunStateR) : StateEqC s s :=
  ⟨rfl, rfl, rfl, rfl, rfl, rfl, rfl, rfl, rfl, rfl⟩

/-- A non-Mixtral multi-kernel layer never touches the MoE weight/expert
regions of the `exp` buffer. -/
theorem layer_moe_frozen (cfg : Config) (w : WeightsR) (pos l : ℕ) (s : RunStateR)
    (ha : cfg.arch ≠ Arch.Mixtral) :
    (layer_post cfg w pos l (layer_pre cfg w pos l s)).moe_weights = s.moe_weights ∧
    (layer_post cfg w pos l (layer_pre cfg w pos l s)).moe_experts = s.moe_experts := by
  cases h2 : cfg.arch
  case Mixtral => exact absurd h2 ha
  all_goals
    simp [layer_post, layer_pre, ffn_stage, attn_stage, attn_norm, qkv_stage, h2]

/-- Neither the embedding nor the sink rotation touches the MoE
weight/expert regions. -/
theorem prelude_moe (cfg : Config) (w : WeightsR) (token pos : ℕ) (s : RunStateR) :
    (sink_phase cfg pos (embed_stage cfg w token s)).moe_weights = s.moe_weights ∧
    (sink_phase cfg pos (embed_stage cfg w token s)).moe_experts = s.moe_experts := by
  rw [sink_phase]
  split <;> exact ⟨rfl, rfl⟩

/-- With flag bit 0 clear, the multi-kernel layer loop runs every layer in
full (the break condition is never taken). -/
theorem forward_layers_nobreak (cfg : Config) (w : WeightsR) (pos flags : ℕ)
    (s : RunStateR) (hf : flags % 2 = 0) :
    forward_layers cfg w pos flags s =
      (List.range cfg.n_layers).foldl
        (fun st l => layer_post cfg w pos l (layer_pre cfg w pos l st)) s := by
  rw [forward_layers]
  apply List.foldl_ext
  intro st l _
  simp [hf]

/-- The layer loops of the two drivers preserve the `StateEqC` relation,
layer by layer, for the three architectures the cooperative path supports. -/
theorem forward_layers_equiv (cfg : Config) (w : WeightsR) (pos ac : ℕ) (ag uh : Bool)
    (hbq : ∀ l, w.bq l = none) (hbk : ∀ l, w.bk l = none) (hbv : ∀ l, w.bv l = none)
    (hcase :
      (cfg.arch = Arch.LlamaLike ∧ ag = false ∧ uh = false ∧ ac = 1 ∧ cfg.n_experts = 0) ∨
      (cfg.arch = Arch.Gemma ∧ ag = true ∧ uh = false ∧ ac = 1 ∧ cfg.n_experts = 0) ∨
      (cfg.arch = Arch.Mixtral ∧ ag = false ∧ uh = true ∧ ac = cfg.n_experts_ac ∧
        cfg.n_experts ≠ 0)) :
    ∀ (ls : List ℕ) (s1 s2 : RunStateR), StateEqC s1 s2 →
      (cfg.arch ≠ Arch.Mixtral →
        s1.moe_weights = exp_dummy_weights ∧ s1.moe_experts = exp_dummy_experts) →
      StateEqC (ls.foldl (fun st l => layer_post cfg w pos l (layer_pre cfg w pos l st)) s1)
        (ls.foldl (fun st l => coop_layer cfg w pos l ac ag uh st) s2) := by
  intro ls
  induction ls with
  | nil => intro s1 s2 hst _; exact hst
  | cons l t ih =>
    intro s1 s2 hst hdum
    rw [List.foldl_cons, List.foldl_cons]
    rcases hcase with ⟨ha, hag, huh, hac, hexp⟩ | ⟨ha, hag, huh, hac, hexp⟩ |
      ⟨ha, hag, huh, hac, hexp⟩
    · subst hag; subst huh; subst hac
      have hne : cfg.arch ≠ Arch.Mixtral := by simp [ha]
      have hd := hdum hne
      have hfr := layer_moe_frozen cfg w pos l s1 hne
      refine ih _ _ (layer_equiv_dense cfg w pos l false s1 s2 (Or.inl ⟨ha, rfl⟩)
        (hbq l) (hbk l) (hbv l) hexp hd.1 hd.2 hst) ?_
      intro _
      exact ⟨hfr.1.trans hd.1, hfr.2.trans hd.2⟩
    · subst hag; subst huh; subst hac
      have hne : cfg.arch ≠ Arch.Mixtral := by simp [ha]
      have hd := hdum hne
      have hfr := layer_moe_frozen cfg w pos l s1 hne
      refine ih _ _ (layer_equiv_dense cfg w pos l true s1 s2 (Or.inr ⟨ha, rfl⟩)
        (hbq l) (hbk l) (hbv l) hexp hd.1 hd.2 hst) ?_
      intro _
      exact ⟨hfr.1.trans hd.1, hfr.2.trans hd.2⟩
    · subst hag; subst huh; subst hac
      refine ih _ _ (layer_equiv_mixtral cfg w pos l s1 s2 ha
        (hbq l) (hbk l) (hbv l) hexp hst) ?_
      intro hne
      exact absurd ha hne

/-- The multi-kernel final stage (RMSNorm into `x`, then classifier) produces
the same logits as the cooperative output kernel (classifier on the unscaled
normalization products times the scale) for the RMSNorm architectures,
provided there is no classifier bias. -/
theorem final_logits_bridge (cfg : Config) (w : WeightsR) (s : RunStateR)
    (ha : cfg.arch = Arch.LlamaLike ∨ cfg.arch = Arch.Mixtral ∨ cfg.arch = Arch.Gemma)
    (hbcls : w.bcls = none) :
    (final_stage cfg w s).1 =
      fun i => matmul_warppar (fun j => s.x j * w.rms_final_weight j) w.wcls i cfg.dim *
        rms_scale s.x cfg.dim cfg.norm_eps := by
  have hxf : (final_stage cfg w s).1 = fun i =>
      matmul_warppar (kernel_rmsnorm s.x s.x w.rms_final_weight cfg.dim cfg.norm_eps)
        w.wcls i cfg.dim := by
    rcases ha with h | h | h <;> simp [final_stage, h, hbcls]
  rw [hxf]
  funext i
  rw [kernel_rmsnorm_eq,
    matmul_ite (fun j => s.x j * w.rms_final_weight j * rms_scale s.x cfg.dim cfg.norm_eps)
      s.x w.wcls i cfg.dim,
    matmul_warppar_smul (fun j => s.x j * w.rms_final_weight j) w.wcls
      (rms_scale s.x cfg.dim cfg.norm_eps) i cfg.dim]

/-- C6.  Path equivalence: for every architecture supported by both drivers
(LlamaLike, Mixtral, Gemma — the cooperative path asserts this set,
infer.cu 1091) and identical config, weights, token, position, flags and
run state (KV caches included), the multi-kernel driver and the cooperative
fused driver produce *exactly* equal logits over the real-valued embedding
(exact equality implies the spec's 1e-3 relative tolerance).  Hypotheses
record what holds for these architectures in the real program: no Q/K/V or
classifier biases (only Qwen and Phi load biases), `n_experts ≠ 0` exactly
for Mixtral, and for dense models the `exp` buffer holds the dummy
weight-1.0/expert-0 contents written by `prepare_cuda` (infer.cu 103-108). -/
theorem c6_path_equivalence (cfg : Config) (w : WeightsR) (token pos flags : ℕ)
    (s : RunStateR)
    (harch : cfg.arch = Arch.LlamaLike ∨ cfg.arch = Arch.Mixtral ∨ cfg.arch = Arch.Gemma)
    (hbq : ∀ l, w.bq l = none) (hbk : ∀ l, w.bk l = none) (hbv : ∀ l, w.bv l = none)
    (hbcls : w.bcls = none)
    (hmoe : cfg.arch = Arch.Mixtral → cfg.n_experts ≠ 0)
    (hdense : cfg.arch ≠ Arch.Mixtral → cfg.n_experts = 0 ∧
      s.moe_weights = exp_dummy_weights ∧ s.moe_experts = exp_dummy_experts) :
    (forward_multi cfg w token pos flags s).1 = (forward_coop cfg w token pos flags s).1 := by
  by_cases hf : flags % 2 = 1
  · simp [forward_multi, forward_coop, hf]
  · have hf0 : flags % 2 = 0 := by omega
    have hpre := prelude_moe cfg w token pos s
    have hdum : cfg.arch ≠ Arch.Mixtral →
        (sink_phase cfg pos (embed_stage cfg w token s)).moe_weights = exp_dummy_weights ∧
        (sink_phase cfg pos (embed_stage cfg w token s)).moe_experts = exp_dummy_experts := by
      intro hne
      exact ⟨hpre.1.trans (hdense hne).2.1, hpre.2.trans (hdense hne).2.2⟩
    rcases harch with h | h | h
    · have hfold := forward_layers_equiv cfg w pos 1 false false hbq hbk hbv
        (Or.inl ⟨h, rfl, rfl, rfl, (hdense (by simp [h])).1⟩)
        (List.range cfg.n_layers)
        (sink_phase cfg pos (embed_stage cfg w token s))
        (sink_phase cfg pos (embed_stage cfg w token s))
        (StateEqC_refl _) hdum
      simp only [forward_multi, forward_coop, hf0, h,
        forward_layers_nobreak cfg w pos flags _ hf0]
      simp only [show (0 : ℕ) = 1 ↔ False by simp, if_false,
        show (Arch.LlamaLike = Arch.Mixtral) = False by simp,
        show (Arch.LlamaLike = Arch.Gemma) = False by simp,
        decide_False, if_false]
      rw [final_logits_bridge cfg w _ (Or.inl h) hbcls, hfold.1]
    · have hfold := forward_layers_equiv cfg w pos cfg.n_experts_ac false true hbq hbk hbv
        (Or.inr (Or.inr ⟨h, rfl, rfl, rfl, hmoe h⟩))
        (List.range cfg.n_layers)
        (sink_phase cfg pos (embed_stage cfg w token s))
        (sink_phase cfg pos (embed_stage cfg w token s))
        (StateEqC_refl _) hdum
      simp only [forward_multi, forward_coop, hf0, h,
        forward_layers_nobreak cfg w pos flags _ hf0]
      simp only [show (0 : ℕ) = 1 ↔ False by simp, if_false,
        show (Arch.Mixtral = Arch.Mixtral) = True by simp,
        show (Arch.Mixtral = Arch.Gemma) = False by simp,
        decide_False, decide_True, if_true, if_false]
      rw [final_logits_bridge cfg w _ (Or.inr (Or.inl h)) hbcls, hfold.1]
    · have hfold := forward_layers_equiv cfg w pos 1 true false hbq hbk hbv
        (Or.inr (Or.inl ⟨h, rfl, rfl, rfl, (hdense (by simp [h])).1⟩))
        (List.range cfg.n_layers)
        (sink_phase cfg pos (embed_stage cfg w token s))
        (sink_phase cfg pos (embed_stage cfg w token s))
        (StateEqC_refl _) hdum
      simp only [forward_multi, forward_coop, hf0, h,
        forward_layers_nobreak cfg w pos flags _ hf0]
      simp only [show (0 : ℕ) = 1 ↔ False by simp, if_false,
        show (Arch.Gemma = Arch.Mixtral) = False by simp,
        show (Arch.Gemma = Arch.Gemma) = True by simp,
        decide_False, decide_True, if_true, if_false]
      rw [final_logits_bridge cfg w _ (Or.inr (Or.inr h)) hbcls, hfold.1]

/-- A run state whose `exp` buffer holds the dense dummy contents written by
`prepare_cuda` (used only to instantiate witnesses). -/
noncomputable def dummyState : RunStateR :=
  { zeroState with moe_weights := exp_dummy_weights, moe_experts := exp_dummy_experts }

/-- Witness for C6 at a concrete LlamaLike configuration. -/
theorem c6_path_equivalence_witness :
    tinyConfig.arch = Arch.LlamaLike ∧
    (forward_multi tinyConfig zeroWeights 1 3 0 dummyState).1 =
      (forward_coop tinyConfig zeroWeights 1 3 0 dummyState).1 :=
  ⟨rfl,
   c6_path_equivalence tinyConfig zeroWeights 1 3 0 dummyState
     (Or.inl rfl) (fun _ => rfl) (fun _ => rfl) (fun _ => rfl) rfl
     (fun h => absurd h (by simp [tinyConfig])) (fun _ => ⟨rfl, rfl, rfl⟩)⟩

/-! ## C8: determinism (scratch-buffer independence) -/

theorem kv_len_le (cfg : Config) (pos : ℕ) : kv_len cfg pos ≤ cfg.seq_len := by
  rw [kv_len]; split <;> omega

theorem matmul_congr (x1 x2 w : ℕ → ℝ) (i n : ℕ)
    (h : ∀ j, j < n → x1 j = x2 j) :
    matmul_warppar x1 w i n = matmul_warppar x2 w i n :=
  Finset.sum_congr rfl (fun j hj => by rw [h j (Finset.mem_range.mp hj)])

theorem rms_scale_congr (x1 x2 : ℕ → ℝ) (n : ℕ) (e : ℝ)
    (h : ∀ j, j < n → x1 j = x2 j) :
    rms_scale x1 n e = rms_scale x2 n e := by
  have hs : (∑ j ∈ Finset.range n, x1 j * x1 j) = ∑ j ∈ Finset.range n, x2 j * x2 j :=
    Finset.sum_congr rfl (fun j hj => by rw [h j (Finset.mem_range.mp hj)])
  rw [rms_scale, rms_scale, hs]

theorem rmsnorm_low_congr (o1 o2 x1 x2 w : ℕ → ℝ) (n : ℕ) (e : ℝ)
    (h : ∀ j, j < n → x1 j = x2 j) :
    ∀ j, j < n → kernel_rmsnorm o1 x1 w n e j = kernel_rmsnorm o2 x2 w n e j := by
  intro j hj
  simp only [kernel_rmsnorm, if_pos hj, h j hj, rms_scale_congr x1 x2 n e h]

/-- The body of `kernel_layernorm` with the accumulated vector `xv` pulled
out as an argument (definitionally equal to `kernel_layernorm`; used only to
state congruence over the accumulated vector). -/
noncomputable def ln_core (o x xv w : ℕ → ℝ) (n : ℕ) (e : ℝ) : (ℕ → ℝ) × (ℕ → ℝ) :=
  let K := xv 0
  let sum := ∑ j ∈ Finset.range n, (xv j - K)
  let ss := ∑ j ∈ Finset.range n, (xv j - K) * (xv j - K)
  let rsize : ℝ := (n : ℝ)⁻¹
  let mean := sum * rsize + K
  let var := (ss - sum * sum * rsize) * rsize
  let scale := rsqrt (var + e)
  (fun j => if j < n then (xv j - mean) * scale * w j else o j,
   fun j => if j < n then xv j else x j)

theorem kernel_layernorm_core (o x w : ℕ → ℝ) (acc : Option (ℕ → ℝ)) (n : ℕ) (e : ℝ) :
    kernel_layernorm o x acc w n e =
      ln_core o x (fun j => x j + (match acc with | some a => a j | none => 0)) w n e := rfl

theorem ln_core_low_congr (o1 o2 x1 x2 xv1 xv2 w : ℕ → ℝ) (n : ℕ) (e : ℝ)
    (hxv : ∀ j, j < n → xv1 j = xv2 j) :
    (∀ j, j < n → (ln_core o1 x1 xv1 w n e).1 j = (ln_core o2 x2 xv2 w n e).1 j) ∧
    (∀ j, j < n → (ln_core o1 x1 xv1 w n e).2 j = (ln_core o2 x2 xv2 w n e).2 j) := by
  constructor <;> intro j hj <;> simp only [ln_core, if_pos hj]
  · have h0 : (0 : ℕ) < n := by omega
    have hsum : (∑ k ∈ Finset.range n, (xv1 k - xv1 0)) =
        ∑ k ∈ Finset.range n, (xv2 k - xv2 0) :=
      Finset.sum_congr rfl (fun k hk => by
        rw [hxv k (Finset.mem_range.mp hk), hxv 0 h0])
    have hss : (∑ k ∈ Finset.range n, (xv1 k - xv1 0) * (xv1 k - xv1 0)) =
        ∑ k ∈ Finset.range n, (xv2 k - xv2 0) * (xv2 k - xv2 0) :=
      Finset.sum_congr rfl (fun k hk => by
        rw [hxv k (Finset.mem_range.mp hk), hxv 0 h0])
    rw [hsum, hss, hxv j hj, hxv 0 h0]
  · exact hxv j hj

theorem qkv_val_congr (x1 x2 w : ℕ → ℝ) (b : Option (ℕ → ℝ)) (n j : ℕ)
    (h : ∀ k, k < n → x1 k = x2 k) :
    qkv_val x1 w b n j = qkv_val x2 w b n j := by
  simp only [qkv_val, matmul_congr x1 x2 w j n h]

theorem qkv_q_low_congr (q1 q2 x1 x2 wq : ℕ → ℝ) (bq : Option (ℕ → ℝ))
    (n d hd rd pos : ℕ) (th : ℝ) (h : ∀ k, k < n → x1 k = x2 k) :
    ∀ e, e < d →
      qkv_q q1 x1 wq bq n d hd rd pos th e = qkv_q q2 x2 wq bq n d hd rd pos th e := by
  intro e he
  simp only [qkv_q, if_pos he,
    qkv_val_congr x1 x2 wq bq n (2 * (e / 2)) h,
    qkv_val_congr x1 x2 wq bq n (2 * (e / 2) + 1) h]

theorem qkv_key_cache_congr (kc x1 x2 wk : ℕ → ℝ) (bk : Option (ℕ → ℝ))
    (n kvd hd rd sl pos kvp : ℕ) (th : ℝ) (h : ∀ k, k < n → x1 k = x2 k) :
    qkv_key_cache kc x1 wk bk n kvd hd rd sl pos kvp th =
      qkv_key_cache kc x2 wk bk n kvd hd rd sl pos kvp th := by
  funext idx
  simp only [qkv_key_cache,
    qkv_val_congr x1 x2 wk bk n (2 * (idx / (2 * sl))) h,
    qkv_val_congr x1 x2 wk bk n (2 * (idx / (2 * sl)) + 1) h]

theorem qkv_value_cache_congr (vc x1 x2 wv : ℕ → ℝ) (bv : Option (ℕ → ℝ))
    (n kvd sl kvp : ℕ) (h : ∀ k, k < n → x1 k = x2 k) :
    qkv_value_cache vc x1 wv bv n kvd sl kvp =
      qkv_value_cache vc x2 wv bv n kvd sl kvp := by
  funext idx
  simp only [qkv_value_cache, qkv_val_congr x1 x2 wv bv n (idx / sl) h]

theorem fold_max_congr (f1 f2 : ℕ → ℝ) (n : ℕ) (h : ∀ j, j < n → f1 j = f2 j) :
    fold_max f1 n = fold_max f2 n := by
  rw [fold_max, fold_max]
  congr 1
  exact List.map_congr_left (fun j hj => h j (List.mem_range.mp hj))

theorem att_score_region_congr (att1 att2 q1 q2 kc : ℕ → ℝ) (nh hd sl km kvl : ℕ)
    (hq : ∀ e, e < nh * hd → q1 e = q2 e) (hsl : kvl ≤ sl) :
    ∀ h t, h < nh → t < kvl →
      att_after_score att1 q1 kc nh hd sl km kvl (h * sl + t) =
        att_after_score att2 q2 kc nh hd sl km kvl (h * sl + t) := by
  intro h t hh ht
  have hts : t < sl := lt_of_lt_of_le ht hsl
  have hidx : h * sl + t = sl * h + t := by ring
  have hdiv : (h * sl + t) / sl = h := by rw [hidx]; exact strided_div sl h t hts
  have hmod : (h * sl + t) % sl = t := by rw [hidx]; exact strided_mod sl h t hts
  have htw : t < 2 * ((kvl + 1) / 2) := by omega
  simp only [att_after_score, hdiv, hmod, if_pos (And.intro hh htw)]
  rw [attn_score, attn_score]
  congr 1
  refine Finset.sum_congr rfl ?_
  intro j hj
  have hjd := Finset.mem_range.mp hj
  have hqe : h * hd + j < nh * hd := by
    calc h * hd + j < h * hd + hd := by omega
    _ = (h + 1) * hd := by ring
    _ ≤ nh * hd := Nat.mul_le_mul_right hd hh
  rw [hq (h * hd + j) hqe]

theorem att_softmax_region_congr (att1 att2 : ℕ → ℝ) (nh sl kvl : ℕ)
    (hsl : kvl ≤ sl)
    (hatt : ∀ h t, h < nh → t < kvl → att1 (h * sl + t) = att2 (h * sl + t)) :
    ∀ h t, h < nh → t < kvl →
      att_after_softmax att1 nh sl kvl (h * sl + t) =
        att_after_softmax att2 nh sl kvl (h * sl + t) := by
  intro h t hh ht
  have hts : t < sl := lt_of_lt_of_le ht hsl
  have hidx : h * sl + t = sl * h + t := by ring
  have hdiv : (h * sl + t) / sl = h := by rw [hidx]; exact strided_div sl h t hts
  have hmod : (h * sl + t) % sl = t := by rw [hidx]; exact strided_mod sl h t hts
  simp only [att_after_softmax, hdiv, hmod, if_pos (And.intro hh ht)]
  rw [hatt h t hh ht,
    fold_max_congr (fun j => att1 (h * sl + j)) (fun j => att2 (h * sl + j)) kvl
      (fun j hj => hatt h j hh hj)]

theorem mix_region_congr (q1 q2 att1 att2 vc : ℕ → ℝ) (nh hd sl km kvl : ℕ)
    (hatt : ∀ h t, h < nh → t < kvl → att1 (h * sl + t) = att2 (h * sl + t)) :
    ∀ e, e < nh * hd →
      q_after_mix q1 att1 vc nh hd sl km kvl e = q_after_mix q2 att2 vc nh hd sl km kvl e := by
  intro e he
  have he2 : e < hd * nh := by rw [Nat.mul_comm]; exact he
  have hh : e / hd < nh := Nat.div_lt_of_lt_mul he2
  simp only [q_after_mix, if_pos he]
  rw [attn_warpdot, attn_warpdot]
  congr 1
  · exact Finset.sum_congr rfl (fun t ht => by
      rw [hatt (e / hd) t hh (Finset.mem_range.mp ht)])
  · exact Finset.sum_congr rfl (fun t ht => by
      rw [hatt (e / hd) t hh (Finset.mem_range.mp ht)])

theorem moe_gate_result_congr (mw1 mw2 : ℕ → ℝ) (me1 me2 : ℕ → ℕ) (g : ℕ → ℝ)
    (E ac : ℕ) :
    (∀ k, k < ac →
      (moe_gate_result mw1 me1 g E ac).1 k = (moe_gate_result mw2 me2 g E ac).1 k) ∧
    (∀ k, k < ac →
      (moe_gate_result mw1 me1 g E ac).2 k = (moe_gate_result mw2 me2 g E ac).2 k) := by
  constructor <;> intro k hk <;> simp [moe_gate_result, hk]

/-- The pre-attention norm depends only on the residual stream below `dim`
(plus, for Phi past layer 0, the parallel accumulator below `dim`); it leaves
the caches and the accumulator untouched. -/
theorem attn_norm_det (cfg : Config) (w : WeightsR) (l : ℕ) (s1 s2 : RunStateR)
    (hx : ∀ i, i < cfg.dim → s1.x i = s2.x i)
    (hxa : cfg.arch = Arch.Phi → l = 0 ∨ ∀ i, i < cfg.dim → s1.xa i = s2.xa i) :
    (∀ j, j < cfg.dim → (attn_norm cfg w l s1).xb j = (attn_norm cfg w l s2).xb j) ∧
    (∀ i, i < cfg.dim → (attn_norm cfg w l s1).x i = (attn_norm cfg w l s2).x i) ∧
    (attn_norm cfg w l s1).key_cache = s1.key_cache ∧
    (attn_norm cfg w l s2).key_cache = s2.key_cache ∧
    (attn_norm cfg w l s1).value_cache = s1.value_cache ∧
    (attn_norm cfg w l s2).value_cache = s2.value_cache ∧
    (attn_norm cfg w l s1).xa = s1.xa ∧ (attn_norm cfg w l s2).xa = s2.xa := by
  cases h2 : cfg.arch
  case Phi =>
    have hxv : ∀ j, j < cfg.dim →
        s1.x j + (match (if l = 0 then (none : Option (ℕ → ℝ)) else some s1.xa) with
          | some a => a j | none => 0) =
        s2.x j + (match (if l = 0 then (none : Option (ℕ → ℝ)) else some s2.xa) with
          | some a => a j | none => 0) := by
      intro j hj
      by_cases hl : l = 0
      · simp [hl, hx j hj]
      · rcases hxa h2 with h | h
        · exact absurd h hl
        · simp [hl, hx j hj, h j hj]
    have hc := ln_core_low_congr s1.xb s2.xb s1.x s2.x
      (fun j => s1.x j + (match (if l = 0 then (none : Option (ℕ → ℝ)) else some s1.xa) with
        | some a => a j | none => 0))
      (fun j => s2.x j + (match (if l = 0 then (none : Option (ℕ → ℝ)) else some s2.xa) with
        | some a => a j | none => 0))
      (w.ln_weight l) cfg.dim cfg.norm_eps hxv
    refine ⟨?_, ?_, by simp [attn_norm, h2], by simp [attn_norm, h2],
      by simp [attn_norm, h2], by simp [attn_norm, h2],
      by simp [attn_norm, h2], by simp [attn_norm, h2]⟩ <;> intro j hj <;>
      simp only [attn_norm, h2] <;> rw [kernel_layernorm_core, kernel_layernorm_core]
    · exact hc.1 j hj
    · exact hc.2 j hj
  case Olmo =>
    have hxv : ∀ j, j < cfg.dim →
        s1.x j + (match (none : Option (ℕ → ℝ)) with | some a => a j | none => 0) =
        s2.x j + (match (none : Option (ℕ → ℝ)) with | some a => a j | none => 0) := by
      intro j hj
      simpa using hx j hj
    have hc := ln_core_low_congr s1.xb s2.xb s1.x s2.x
      (fun j => s1.x j + (match (none : Option (ℕ → ℝ)) with | some a => a j | none => 0))
      (fun j => s2.x j + (match (none : Option (ℕ → ℝ)) with | some a => a j | none => 0))
      (w.rms_att_weight l) cfg.dim cfg.norm_eps hxv
    refine ⟨?_, fun i hi => by simp only [attn_norm, h2]; exact hx i hi,
      by simp [attn_norm, h2], by simp [attn_norm, h2],
      by simp [attn_norm, h2], by simp [attn_norm, h2],
      by simp [attn_norm, h2], by simp [attn_norm, h2]⟩
    intro j hj
    simp only [attn_norm, h2]
    rw [kernel_layernorm_core, kernel_layernorm_core]
    exact hc.1 j hj
  all_goals
    exact ⟨fun j hj => by
        simp only [attn_norm, h2]
        exact rmsnorm_low_congr s1.xb s2.xb s1.x s2.x (w.rms_att_weight l)
          cfg.dim cfg.norm_eps hx j hj,
      fun i hi => by simp only [attn_norm, h2]; exact hx i hi,
      by simp [attn_norm, h2], by simp [attn_norm, h2],
      by simp [attn_norm, h2], by simp [attn_norm, h2],
      by simp [attn_norm, h2], by simp [attn_norm, h2]⟩

/-- The fused QKV stage depends only on the normalized input below `dim` and
writes `q` below `q_dim` and the layer's caches. -/
theorem qkv_stage_det (cfg : Config) (w : WeightsR) (pos l : ℕ) (s1 s2 : RunStateR)
    (hxb : ∀ j, j < cfg.dim → s1.xb j = s2.xb j)
    (hkc : s1.key_cache = s2.key_cache) (hvc : s1.value_cache = s2.value_cache) :
    (∀ e, e < cfg.head_dim * cfg.n_heads →
      (qkv_stage cfg w pos l s1).q e = (qkv_stage cfg w pos l s2).q e) ∧
    (qkv_stage cfg w pos l s1).key_cache = (qkv_stage cfg w pos l s2).key_cache ∧
    (qkv_stage cfg w pos l s1).value_cache = (qkv_stage cfg w pos l s2).value_cache := by
  refine ⟨?_, ?_, ?_⟩
  · intro e he
    simp only [qkv_stage]
    exact qkv_q_low_congr s1.q s2.q s1.xb s2.xb (w.wq l) (w.bq l) cfg.dim
      (cfg.head_dim * cfg.n_heads) cfg.head_dim cfg.rotary_dim pos
      (Real.logb 2 cfg.rope_theta) hxb e he
  · funext l2
    simp only [qkv_stage]
    rw [hkc]
    by_cases h2 : l2 = l
    · simp only [h2, if_true, eq_self_iff_true]
      exact qkv_key_cache_congr (s2.key_cache l) s1.xb s2.xb (w.wk l) (w.bk l)
        cfg.dim (cfg.head_dim * cfg.n_kv_heads) cfg.head_dim cfg.rotary_dim cfg.seq_len
        pos (kv_pos cfg pos) (Real.logb 2 cfg.rope_theta) hxb
    · simp [h2]
  · funext l2
    simp only [qkv_stage]
    rw [hvc]
    by_cases h2 : l2 = l
    · simp only [h2, if_true, eq_self_iff_true]
      exact qkv_value_cache_congr (s2.value_cache l) s1.xb s2.xb (w.wv l) (w.bv l)
        cfg.dim (cfg.head_dim * cfg.n_kv_heads) cfg.seq_len (kv_pos cfg pos) hxb
    · simp [h2]

/-- The attention stage's update of the residual stream depends only on the
query below `q_dim`, the residual below `dim`, and the caches. -/
theorem attn_stage_det (cfg : Config) (w : WeightsR) (pos l : ℕ) (s1 s2 : RunStateR)
    (hq : ∀ e, e < cfg.n_heads * cfg.head_dim → s1.q e = s2.q e)
    (hx : ∀ i, i < cfg.dim → s1.x i = s2.x i)
    (hkc : s1.key_cache = s2.key_cache) (hvc : s1.value_cache = s2.value_cache) :
    ∀ i, i < cfg.dim → (attn_stage cfg w pos l s1).x i = (attn_stage cfg w pos l s2).x i := by
  have hsl := kv_len_le cfg pos
  have hatt1 := att_score_region_congr s1.att s2.att s1.q s2.q (s2.key_cache l)
    cfg.n_heads cfg.head_dim cfg.seq_len (cfg.n_heads / cfg.n_kv_heads)
    (kv_len cfg pos) hq hsl
  have hatt2 := att_softmax_region_congr
    (att_after_score s1.att s1.q (s2.key_cache l) cfg.n_heads cfg.head_dim cfg.seq_len
      (cfg.n_heads / cfg.n_kv_heads) (kv_len cfg pos))
    (att_after_score s2.att s2.q (s2.key_cache l) cfg.n_heads cfg.head_dim cfg.seq_len
      (cfg.n_heads / cfg.n_kv_heads) (kv_len cfg pos))
    cfg.n_heads cfg.seq_len (kv_len cfg pos) hsl hatt1
  have hq2 := mix_region_congr s1.q s2.q
    (att_after_softmax (att_after_score s1.att s1.q (s2.key_cache l) cfg.n_heads cfg.head_dim
      cfg.seq_len (cfg.n_heads / cfg.n_kv_heads) (kv_len cfg pos))
      cfg.n_heads cfg.seq_len (kv_len cfg pos))
    (att_after_softmax (att_after_score s2.att s2.q (s2.key_cache l) cfg.n_heads cfg.head_dim
      cfg.seq_len (cfg.n_heads / cfg.n_kv_heads) (kv_len cfg pos))
      cfg.n_heads cfg.seq_len (kv_len cfg pos))
    (s2.value_cache l) cfg.n_heads cfg.head_dim cfg.seq_len
    (cfg.n_heads / cfg.n_kv_heads) (kv_len cfg pos) hatt2
  intro i hi
  simp only [attn_stage, hkc, hvc, hi, if_true]
  rw [hx i hi]
  congr 1
  apply matmul_congr
  intro j hj
  have hj2 : j < cfg.n_heads * cfg.head_dim := by rw [Nat.mul_comm] at hj; exact hj
  exact hq2 j hj2

theorem ffn13_low_congr (hb1 hb2 xb1 xb2 w1f w3f : ℕ → ℝ) (act : ℝ → ℝ) (n d : ℕ)
    (h : ∀ j, j < n → xb1 j = xb2 j) :
    ∀ i, i < d → ffn13 hb1 xb1 w1f w3f act n d i = ffn13 hb2 xb2 w1f w3f act n d i := by
  intro i hi
  simp only [ffn13, if_pos hi, matmul_congr xb1 xb2 w1f i n h,
    matmul_congr xb1 xb2 w3f i n h]

theorem ffn1_gelu_low_congr (hb1 hb2 xb1 xb2 w1f b1f : ℕ → ℝ) (n d : ℕ)
    (h : ∀ j, j < n → xb1 j = xb2 j) :
    ∀ i, i < d → ffn1_gelu hb1 xb1 w1f b1f n d i = ffn1_gelu hb2 xb2 w1f b1f n d i := by
  intro i hi
  simp only [ffn1_gelu, if_pos hi, matmul_congr xb1 xb2 w1f i n h]

theorem ffn2_low_congr (xo1 xo2 hb1 hb2 w2f acc1 acc2 : ℕ → ℝ) (n d : ℕ)
    (hhb : ∀ j, j < n → hb1 j = hb2 j) (hacc : ∀ i, i < d → acc1 i = acc2 i) :
    ∀ i, i < d → ffn2 xo1 hb1 w2f acc1 n d i = ffn2 xo2 hb2 w2f acc2 n d i := by
  intro i hi
  simp only [ffn2, if_pos hi, matmul_congr hb1 hb2 w2f i n hhb, hacc i hi]

theorem moe_gate_logits_congr (xb1 xb2 mg : ℕ → ℝ) (n : ℕ)
    (h : ∀ j, j < n → xb1 j = xb2 j) :
    moe_gate_logits xb1 mg n = moe_gate_logits xb2 mg n := by
  funext j
  exact matmul_congr xb1 xb2 mg j n h

theorem moe_he_low_congr (he1 he2 xb1 xb2 w1f w3f : ℕ → ℝ) (eof1 eof2 : ℕ → ℕ)
    (n d ac : ℕ)
    (hxb : ∀ j, j < n → xb1 j = xb2 j) (heof : ∀ e, e < ac → eof1 e = eof2 e) :
    ∀ j, j < d * ac →
      moe_he he1 xb1 w1f w3f eof1 n d ac j = moe_he he2 xb2 w1f w3f eof2 n d ac j := by
  intro j hj
  have hje : j / d < ac := Nat.div_lt_of_lt_mul hj
  simp only [moe_he, if_pos hj, heof (j / d) hje,
    matmul_congr xb1 xb2 w1f (j % d + eof2 (j / d) * d) n hxb,
    matmul_congr xb1 xb2 w3f (j % d + eof2 (j / d) * d) n hxb]

theorem moe_down_low_congr (x1 x2 he1 he2 w2f : ℕ → ℝ) (eof1 eof2 : ℕ → ℕ)
    (wof1 wof2 : ℕ → ℝ) (n d ac : ℕ)
    (hx : ∀ i, i < d → x1 i = x2 i)
    (hhe : ∀ j, j < n * ac → he1 j = he2 j)
    (heof : ∀ e, e < ac → eof1 e = eof2 e) (hwof : ∀ e, e < ac → wof1 e = wof2 e) :
    ∀ i, i < d →
      moe_down x1 he1 w2f eof1 wof1 n d ac i = moe_down x2 he2 w2f eof2 wof2 n d ac i := by
  intro i hi
  simp only [moe_down, if_pos hi, hx i hi]
  congr 1
  refine Finset.sum_congr rfl ?_
  intro e he
  have hea := Finset.mem_range.mp he
  rw [heof e hea, hwof e hea]
  congr 1
  apply matmul_congr
  intro jj hjj
  apply hhe
  have h1 : e * n + jj < ac * n := by
    calc e * n + jj < e * n + n := by omega
    _ = (e + 1) * n := by ring
    _ ≤ ac * n := Nat.mul_le_mul_right n hea
  have h2 : ac * n = n * ac := Nat.mul_comm ac n
  exact h2 ▸ h1

/-- The FFN stage's updates depend only on the residual stream and the
normalized buffer below `dim`; caches are untouched. -/
theorem ffn_stage_det (cfg : Config) (w : WeightsR) (l : ℕ) (s1 s2 : RunStateR)
    (hx : ∀ i, i < cfg.dim → s1.x i = s2.x i)
    (hxb : ∀ j, j < cfg.dim → s1.xb j = s2.xb j) :
    (∀ i, i < cfg.dim → (ffn_stage cfg w l s1).x i = (ffn_stage cfg w l s2).x i) ∧
    (cfg.arch = Arch.Phi → ∀ i, i < cfg.dim →
      (ffn_stage cfg w l s1).xa i = (ffn_stage cfg w l s2).xa i) ∧
    (ffn_stage cfg w l s1).key_cache = s1.key_cache ∧
    (ffn_stage cfg w l s2).key_cache = s2.key_cache ∧
    (ffn_stage cfg w l s1).value_cache = s1.value_cache ∧
    (ffn_stage cfg w l s2).value_cache = s2.value_cache := by
  cases h2 : cfg.arch
  case Phi =>
    have hhb := ffn1_gelu_low_congr s1.hb s2.hb s1.xb s2.xb (w.w1 l) (w.b1 l)
      cfg.dim cfg.hidden_dim hxb
    refine ⟨?_, ?_, by simp [ffn_stage, h2], by simp [ffn_stage, h2],
      by simp [ffn_stage, h2], by simp [ffn_stage, h2]⟩
    · intro i hi
      simp only [ffn_stage, h2]
      exact hx i hi
    · intro _ i hi
      simp only [ffn_stage, h2]
      exact ffn2_low_congr s1.xa s2.xa _ _ (w.w2 l) (w.b2 l) (w.b2 l)
        cfg.hidden_dim cfg.dim hhb (fun _ _ => rfl) i hi
  case Olmo =>
    have hxv : ∀ j, j < cfg.dim →
        s1.x j + (match (none : Option (ℕ → ℝ)) with | some a => a j | none => 0) =
        s2.x j + (match (none : Option (ℕ → ℝ)) with | some a => a j | none => 0) := by
      intro j hj
      simpa using hx j hj
    have hc := ln_core_low_congr s1.xb s2.xb s1.x s2.x
      (fun j => s1.x j + (match (none : Option (ℕ → ℝ)) with | some a => a j | none => 0))
      (fun j => s2.x j + (match (none : Option (ℕ → ℝ)) with | some a => a j | none => 0))
      (w.rms_ffn_weight l) cfg.dim cfg.norm_eps hxv
    have hxb2 : ∀ j, j < cfg.dim →
        (kernel_layernorm s1.xb s1.x none (w.rms_ffn_weight l) cfg.dim cfg.norm_eps).1 j =
        (kernel_layernorm s2.xb s2.x none (w.rms_ffn_weight l) cfg.dim cfg.norm_eps).1 j := by
      intro j hj
      rw [kernel_layernorm_core, kernel_layernorm_core]
      exact hc.1 j hj
    have hhb := ffn13_low_congr s1.hb s2.hb
      (kernel_layernorm s1.xb s1.x none (w.rms_ffn_weight l) cfg.dim cfg.norm_eps).1
      (kernel_layernorm s2.xb s2.x none (w.rms_ffn_weight l) cfg.dim cfg.norm_eps).1
      (w.w1 l) (w.w3 l) silu cfg.dim cfg.hidden_dim hxb2
    refine ⟨?_, fun hPhi => by simp [h2] at hPhi,
      by simp [ffn_stage, h2], by simp [ffn_stage, h2],
      by simp [ffn_stage, h2], by simp [ffn_stage, h2]⟩
    intro i hi
    simp only [ffn_stage, h2]
    exact ffn2_low_congr s1.x s2.x _ _ (w.w2 l) s1.x s2.x
      cfg.hidden_dim cfg.dim hhb hx i hi
  case Mixtral =>
    have hxb2 := rmsnorm_low_congr s1.xb s2.xb s1.x s2.x (w.rms_ffn_weight l)
      cfg.dim cfg.norm_eps hx
    have hg : moe_gate_logits
        (kernel_rmsnorm s1.xb s1.x (w.rms_ffn_weight l) cfg.dim cfg.norm_eps)
        (w.moegate l) cfg.dim =
      moe_gate_logits
        (kernel_rmsnorm s2.xb s2.x (w.rms_ffn_weight l) cfg.dim cfg.norm_eps)
        (w.moegate l) cfg.dim :=
      moe_gate_logits_congr _ _ (w.moegate l) cfg.dim hxb2
    have hgr1 : ∀ k, k < cfg.n_experts_ac →
        (moe_gate_result s1.moe_weights s1.moe_experts
          (moe_gate_logits (kernel_rmsnorm s1.xb s1.x (w.rms_ffn_weight l) cfg.dim cfg.norm_eps)
            (w.moegate l) cfg.dim) cfg.n_experts cfg.n_experts_ac).1 k =
        (moe_gate_result s2.moe_weights s2.moe_experts
          (moe_gate_logits (kernel_rmsnorm s2.xb s2.x (w.rms_ffn_weight l) cfg.dim cfg.norm_eps)
            (w.moegate l) cfg.dim) cfg.n_experts cfg.n_experts_ac).1 k := by
      rw [hg]
      exact (moe_gate_result_congr s1.moe_weights s2.moe_weights s1.moe_experts s2.moe_experts
        _ cfg.n_experts cfg.n_experts_ac).1
    have hgr2 : ∀ k, k < cfg.n_experts_ac →
        (moe_gate_result s1.moe_weights s1.moe_experts
          (moe_gate_logits (kernel_rmsnorm s1.xb s1.x (w.rms_ffn_weight l) cfg.dim cfg.norm_eps)
            (w.moegate l) cfg.dim) cfg.n_experts cfg.n_experts_ac).2 k =
        (moe_gate_result s2.moe_weights s2.moe_experts
          (moe_gate_logits (kernel_rmsnorm s2.xb s2.x (w.rms_ffn_weight l) cfg.dim cfg.norm_eps)
            (w.moegate l) cfg.dim) cfg.n_experts cfg.n_experts_ac).2 k := by
      rw [hg]
      exact (moe_gate_result_congr s1.moe_weights s2.moe_weights s1.moe_experts s2.moe_experts
        _ cfg.n_experts cfg.n_experts_ac).2
    have hhe := moe_he_low_congr s1.he s2.he
      (kernel_rmsnorm s1.xb s1.x (w.rms_ffn_weight l) cfg.dim cfg.norm_eps)
      (kernel_rmsnorm s2.xb s2.x (w.rms_ffn_weight l) cfg.dim cfg.norm_eps)
      (w.w1 l) (w.w3 l) _ _ cfg.dim cfg.hidden_dim cfg.n_experts_ac hxb2 hgr2
    refine ⟨?_, fun hPhi => by simp [h2] at hPhi,
      by simp [ffn_stage, h2], by simp [ffn_stage, h2],
      by simp [ffn_stage, h2], by simp [ffn_stage, h2]⟩
    intro i hi
    simp only [ffn_stage, h2]
    exact moe_down_low_congr s1.x s2.x _ _ (w.w2 l) _ _ _ _
      cfg.hidden_dim cfg.dim cfg.n_experts_ac hx hhe hgr2 hgr1 i hi
  all_goals
    refine ⟨?_, fun hPhi => by simp [h2] at hPhi,
      by simp [ffn_stage, h2], by simp [ffn_stage, h2],
      by simp [ffn_stage, h2], by simp [ffn_stage, h2]⟩
  all_goals
    have hxb2 := rmsnorm_low_congr s1.xb s2.xb s1.x s2.x (w.rms_ffn_weight l)
      cfg.dim cfg.norm_eps hx
  all_goals
    intro i hi
  all_goals
    simp only [ffn_stage, h2]
  all_goals
    refine ffn2_low_congr s1.x s2.x _ _ (w.w2 l) s1.x s2.x
      cfg.hidden_dim cfg.dim (ffn13_low_congr s1.hb s2.hb _ _ (w.w1 l) (w.w3 l) _
        cfg.dim cfg.hidden_dim hxb2) hx i hi

/-- One full multi-kernel layer preserves agreement of the deterministic
state (residual stream below `dim`, both KV caches, and — for Phi — the
parallel accumulator below `dim`, which layer 0 does not read). -/
theorem layer_det_congr (cfg : Config) (w : WeightsR) (pos l : ℕ) (s1 s2 : RunStateR)
    (hx : ∀ i, i < cfg.dim → s1.x i = s2.x i)
    (hkc : s1.key_cache = s2.key_cache) (hvc : s1.value_cache = s2.value_cache)
    (hxa : cfg.arch = Arch.Phi → l = 0 ∨ ∀ i, i < cfg.dim → s1.xa i = s2.xa i) :
    (∀ i, i < cfg.dim → (layer_post cfg w pos l (layer_pre cfg w pos l s1)).x i =
      (layer_post cfg w pos l (layer_pre cfg w pos l s2)).x i) ∧
    (layer_post cfg w pos l (layer_pre cfg w pos l s1)).key_cache =
      (layer_post cfg w pos l (layer_pre cfg w pos l s2)).key_cache ∧
    (layer_post cfg w pos l (layer_pre cfg w pos l s1)).value_cache =
      (layer_post cfg w pos l (layer_pre cfg w pos l s2)).value_cache ∧
    (cfg.arch = Arch.Phi → ∀ i, i < cfg.dim →
      (layer_post cfg w pos l (layer_pre cfg w pos l s1)).xa i =
        (layer_post cfg w pos l (layer_pre cfg w pos l s2)).xa i) := by
  obtain ⟨hTxb, hTx, hTk1, hTk2, hTv1, hTv2, hTa1, hTa2⟩ :=
    attn_norm_det cfg w l s1 s2 hx hxa
  have hTkc : (attn_norm cfg w l s1).key_cache = (attn_norm cfg w l s2).key_cache := by
    rw [hTk1, hTk2, hkc]
  have hTvc : (attn_norm cfg w l s1).value_cache = (attn_norm cfg w l s2).value_cache := by
    rw [hTv1, hTv2, hvc]
  obtain ⟨hUq, hUkc, hUvc⟩ := qkv_stage_det cfg w pos l (attn_norm cfg w l s1)
    (attn_norm cfg w l s2) hTxb hTkc hTvc
  have hUq2 : ∀ e, e < cfg.n_heads * cfg.head_dim →
      (layer_pre cfg w pos l s1).q e = (layer_pre cfg w pos l s2).q e := by
    intro e he
    exact hUq e (by rw [Nat.mul_comm] at he; exact he)
  have hVx := attn_stage_det cfg w pos l (layer_pre cfg w pos l s1)
    (layer_pre cfg w pos l s2) hUq2 hTx hUkc hUvc
  obtain ⟨hFx, hFxa, hFk1, hFk2, hFv1, hFv2⟩ := ffn_stage_det cfg w l
    (attn_stage cfg w pos l (layer_pre cfg w pos l s1))
    (attn_stage cfg w pos l (layer_pre cfg w pos l s2))
    hVx hTxb
  exact ⟨hFx, hFk1.trans (hUkc.trans hFk2.symm), hFv1.trans (hUvc.trans hFv2.symm), hFxa⟩

/-- The layer loop preserves agreement of the deterministic state, provided
the accumulator part already holds at entry. -/
theorem layers_det_congr (cfg : Config) (w : WeightsR) (pos : ℕ) :
    ∀ (ls : List ℕ) (s1 s2 : RunStateR),
      (∀ i, i < cfg.dim → s1.x i = s2.x i) →
      s1.key_cache = s2.key_cache → s1.value_cache = s2.value_cache →
      (cfg.arch = Arch.Phi → ∀ i, i < cfg.dim → s1.xa i = s2.xa i) →
      (∀ i, i < cfg.dim →
        (ls.foldl (fun st l2 => layer_post cfg w pos l2 (layer_pre cfg w pos l2 st)) s1).x i =
        (ls.foldl (fun st l2 => layer_post cfg w pos l2 (layer_pre cfg w pos l2 st)) s2).x i) ∧
      (ls.foldl (fun st l2 => layer_post cfg w pos l2 (layer_pre cfg w pos l2 st)) s1).key_cache =
        (ls.foldl (fun st l2 => layer_post cfg w pos l2 (layer_pre cfg w pos l2 st)) s2).key_cache ∧
      (ls.foldl (fun st l2 => layer_post cfg w pos l2 (layer_pre cfg w pos l2 st)) s1).value_cache =
        (ls.foldl (fun st l2 => layer_post cfg w pos l2 (layer_pre cfg w pos l2 st)) s2).value_cache ∧
      (cfg.arch = Arch.Phi → ∀ i, i < cfg.dim →
        (ls.foldl (fun st l2 => layer_post cfg w pos l2 (layer_pre cfg w pos l2 st)) s1).xa i =
        (ls.foldl (fun st l2 => layer_post cfg w pos l2 (layer_pre cfg w pos l2 st)) s2).xa i) := by
  intro ls
  induction ls with
  | nil => intro s1 s2 hx hkc hvc hxa; exact ⟨hx, hkc, hvc, hxa⟩
  | cons l t ih =>
    intro s1 s2 hx hkc hvc hxa
    simp only [List.foldl_cons]
    obtain ⟨hx', hkc', hvc', hxa'⟩ := layer_det_congr cfg w pos l s1 s2 hx hkc hvc
      (fun hPhi => Or.inr (hxa hPhi))
    exact ih _ _ hx' hkc' hvc' hxa'

/-- The embedding and sink phases turn equal caches and identical inputs
into agreement of the deterministic state (the residual stream is freshly
written below `dim` from the weights). -/
theorem prelude_det (cfg : Config) (w : WeightsR) (token pos : ℕ) (s1 s2 : RunStateR)
    (hkc : s1.key_cache = s2.key_cache) (hvc : s1.value_cache = s2.value_cache) :
    (∀ i, i < cfg.dim →
      (sink_phase cfg pos (embed_stage cfg w token s1)).x i =
        (sink_phase cfg pos (embed_stage cfg w token s2)).x i) ∧
    (sink_phase cfg pos (embed_stage cfg w token s1)).key_cache =
      (sink_phase cfg pos (embed_stage cfg w token s2)).key_cache ∧
    (sink_phase cfg pos (embed_stage cfg w token s1)).value_cache =
      (sink_phase cfg pos (embed_stage cfg w token s2)).value_cache := by
  by_cases hs : 0 < kv_sink cfg pos
  · refine ⟨?_, ?_, ?_⟩
    · intro i hi
      simp [sink_phase, embed_stage, hs, hi]
    · simp [sink_phase, embed_stage, hs, hkc]
    · simp [sink_phase, embed_stage, hs, hvc]
  · refine ⟨?_, ?_, ?_⟩
    · intro i hi
      simp [sink_phase, embed_stage, hs, hi]
    · simp [sink_phase, embed_stage, hs, hkc]
    · simp [sink_phase, embed_stage, hs, hvc]

/-- The final norm and classifier depend only on the residual stream below
`dim` (plus, for Phi, the accumulator below `dim`). -/
theorem final_det (cfg : Config) (w : WeightsR) (s1 s2 : RunStateR)
    (hx : ∀ i, i < cfg.dim → s1.x i = s2.x i)
    (hxa : cfg.arch = Arch.Phi → ∀ i, i < cfg.dim → s1.xa i = s2.xa i) :
    (final_stage cfg w s1).1 = (final_stage cfg w s2).1 := by
  funext i
  cases h2 : cfg.arch
  case Phi =>
    have hxv : ∀ j, j < cfg.dim →
        s1.x j + (match (some s1.xa : Option (ℕ → ℝ)) with | some a => a j | none => 0) =
        s2.x j + (match (some s2.xa : Option (ℕ → ℝ)) with | some a => a j | none => 0) := by
      intro j hj
      simp [hx j hj, hxa h2 j hj]
    have hc := ln_core_low_congr s1.x s2.x s1.x s2.x
      (fun j => s1.x j +
        (match (some s1.xa : Option (ℕ → ℝ)) with | some a => a j | none => 0))
      (fun j => s2.x j +
        (match (some s2.xa : Option (ℕ → ℝ)) with | some a => a j | none => 0))
      w.ln_final_weight cfg.dim cfg.norm_eps hxv
    simp only [final_stage, h2]
    congr 1
    apply matmul_congr
    intro j hj
    rw [kernel_layernorm_core, kernel_layernorm_core]
    exact hc.1 j hj
  case Olmo =>
    have hxv : ∀ j, j < cfg.dim →
        s1.x j + (match (none : Option (ℕ → ℝ)) with | some a => a j | none => 0) =
        s2.x j + (match (none : Option (ℕ → ℝ)) with | some a => a j | none => 0) := by
      intro j hj
      simpa using hx j hj
    have hc := ln_core_low_congr s1.x s2.x s1.x s2.x
      (fun j => s1.x j + (match (none : Option (ℕ → ℝ)) with | some a => a j | none => 0))
      (fun j => s2.x j + (match (none : Option (ℕ → ℝ)) with | some a => a j | none => 0))
      w.rms_final_weight cfg.dim cfg.norm_eps hxv
    simp only [final_stage, h2]
    congr 1
    apply matmul_congr
    intro j hj
    rw [kernel_layernorm_core, kernel_layernorm_core]
    exact hc.1 j hj
  all_goals
    simp only [final_stage, h2]
  all_goals
    congr 1
  all_goals
    apply matmul_congr
  all_goals
    exact rmsnorm_low_congr s1.x s2.x s1.x s2.x w.rms_final_weight cfg.dim cfg.norm_eps hx

/-- C8.  Determinism: for identical config, weights, token, position and
flags, and equal prior KV caches (an empty cache included), two executions
of the multi-kernel forward pass produce exactly equal logits — the result
does not depend on the arbitrary prior contents of any scratch buffer
(`x`, `xb`, `xa`, `hb`, `he`, `q`, `att`, `exp`).  Over the real-valued
embedding "bitwise identical" is exact equality; the model assumes at least
one layer (a Phi config with zero layers would read the uninitialized
accumulator). -/
theorem c8_determinism (cfg : Config) (w : WeightsR) (token pos flags : ℕ)
    (s1 s2 : RunStateR) (hnl : 0 < cfg.n_layers)
    (hkc : s1.key_cache = s2.key_cache) (hvc : s1.value_cache = s2.value_cache) :
    (forward_multi cfg w token pos flags s1).1 =
      (forward_multi cfg w token pos flags s2).1 := by
  by_cases hf : flags % 2 = 1
  · simp [forward_multi, hf]
  · have hf0 : flags % 2 = 0 := by omega
    obtain ⟨hpx, hpk, hpv⟩ := prelude_det cfg w token pos s1 s2 hkc hvc
    obtain ⟨m, hm⟩ : ∃ m, cfg.n_layers = m + 1 := ⟨cfg.n_layers - 1, by omega⟩
    simp only [forward_multi, hf0, forward_layers_nobreak cfg w pos flags _ hf0]
    simp only [show (0 : ℕ) = 1 ↔ False by simp, if_false]
    rw [hm, List.range_succ_eq_map]
    simp only [List.foldl_cons]
    obtain ⟨h0x, h0k, h0v, h0a⟩ := layer_det_congr cfg w pos 0
      (sink_phase cfg pos (embed_stage cfg w token s1))
      (sink_phase cfg pos (embed_stage cfg w token s2))
      hpx hpk hpv (fun _ => Or.inl rfl)
    obtain ⟨hLx, hLk, hLv, hLa⟩ := layers_det_congr cfg w pos
      ((List.range m).map Nat.succ) _ _ h0x h0k h0v h0a
    rw [final_det cfg w _ _ hLx hLa]

/-- Witness for C8: two runs from states with equal (all-zero) caches but
different scratch contents. -/
theorem c8_determinism_witness :
    0 < tinyConfig.n_layers ∧
    (forward_multi tinyConfig zeroWeights 1 3 0 zeroState).1 =
      (forward_multi tinyConfig zeroWeights 1 3 0 dummyState).1 :=
  ⟨Nat.one_pos,
   c8_determinism tinyConfig zeroWeights 1 3 0 zeroState dummyState Nat.one_pos rfl rfl⟩

/-! ## C5 (corrected): UPDATE_KV_ONLY control flow in both drivers -/

/-- C5 (corrected).  With the UPDATE_KV_ONLY flag (bit 0) set, both drivers
return null rather than a logits pointer — but only the *multi-kernel*
driver stops the last layer right after its QKV/KV-write (its launch trace
ends there, with no attention, FFN, final-norm or classifier launch for
that layer, infer.cu 699-702 and 775-778).  The *cooperative* driver has no
such break: its fused kernel receives no flags and runs every layer — the
last included — through attention and FFN (infer.cu 894-1061); the flag
only skips the output kernel (infer.cu 1164-1169).  With the flag clear,
both drivers return a logits pointer. -/
theorem c5_update_kv_only (cfg : Config) (w : WeightsR) (token pos flags : ℕ)
    (s : RunStateR) (hL : 1 ≤ cfg.n_layers) :
    (flags % 2 = 1 →
      (forward_multi cfg w token pos flags s).1 = none ∧
      (∃ P, forward_trace cfg pos flags =
        P ++ [Step.normAtt (cfg.n_layers - 1), Step.qkv (cfg.n_layers - 1)]) ∧
      Step.attnScore (cfg.n_layers - 1) ∉ forward_trace cfg pos flags ∧
      Step.attnSoftmax (cfg.n_layers - 1) ∉ forward_trace cfg pos flags ∧
      Step.attnMix (cfg.n_layers - 1) ∉ forward_trace cfg pos flags ∧
      Step.attnOut (cfg.n_layers - 1) ∉ forward_trace cfg pos flags ∧
      Step.normFfn (cfg.n_layers - 1) ∉ forward_trace cfg pos flags ∧
      Step.moeGate (cfg.n_layers - 1) ∉ forward_trace cfg pos flags ∧
      Step.ffnUp (cfg.n_layers - 1) ∉ forward_trace cfg pos flags ∧
      Step.ffnDown (cfg.n_layers - 1) ∉ forward_trace cfg pos flags ∧
      Step.normFinal ∉ forward_trace cfg pos flags ∧
      Step.classifier ∉ forward_trace cfg pos flags ∧
      (forward_coop cfg w token pos flags s).1 = none ∧
      Step.attnScore (cfg.n_layers - 1) ∈ coop_trace cfg pos flags ∧
      Step.ffnDown (cfg.n_layers - 1) ∈ coop_trace cfg pos flags ∧
      Step.classifier ∉ coop_trace cfg pos flags) ∧
    (flags % 2 = 0 →
      ((forward_multi cfg w token pos flags s).1).isSome = true ∧
      ((forward_coop cfg w token pos flags s).1).isSome = true) := by
  constructor
  · intro hflag
    have hres : (forward_multi cfg w token pos flags s).1 = none := by
      rw [forward_multi]
      simp [hflag]
    have hlast : (if cfg.n_layers - 1 = cfg.n_layers - 1 ∧ flags % 2 = 1 then
        layer_pre_trace (cfg.n_layers - 1)
        else layer_pre_trace (cfg.n_layers - 1) ++ layer_post_trace cfg (cfg.n_layers - 1)) =
        layer_pre_trace (cfg.n_layers - 1) := by
      rw [if_pos ⟨rfl, hflag⟩]
    have hsplit : layers_trace cfg flags cfg.n_layers =
        layers_trace cfg flags (cfg.n_layers - 1) ++ layer_pre_trace (cfg.n_layers - 1) := by
      obtain ⟨m, hm⟩ : ∃ m, cfg.n_layers = m + 1 := ⟨cfg.n_layers - 1, by omega⟩
      have hm1 : cfg.n_layers - 1 = m := by omega
      rw [hm1] at hlast
      conv_lhs => rw [hm]
      rw [layers_trace, hm1, hlast]
    have hmemlast : coop_layer_trace cfg (cfg.n_layers - 1) ∈
        (List.range cfg.n_layers).map (coop_layer_trace cfg) :=
      List.mem_map.mpr ⟨cfg.n_layers - 1, List.mem_range.mpr (by omega), rfl⟩
    refine ⟨hres, ?_, ?_, ?_, ?_, ?_, ?_, ?_, ?_, ?_, ?_, ?_, ?_, ?_, ?_, ?_⟩
    · refine ⟨[Step.embed] ++ (if 0 < kv_sink cfg pos then [Step.rotateSink] else []) ++
        layers_trace cfg flags (cfg.n_layers - 1), ?_⟩
      rw [forward_trace, hsplit, if_pos hflag]
      simp [layer_pre_trace, List.append_assoc]
    · intro hmem
      rw [forward_trace, if_pos hflag, List.append_nil] at hmem
      rw [List.mem_append, List.mem_append, mem_layers_trace] at hmem
      rcases hmem with (h1 | h1) | ⟨l, hl, hmem⟩
      · simp at h1
      · split at h1 <;> simp at h1
      · by_cases hle : l = cfg.n_layers - 1
        · rw [hle, if_pos ⟨rfl, hflag⟩] at hmem
          simp [layer_pre_trace] at hmem
        · rw [if_neg (fun hc => hle hc.1)] at hmem
          rw [List.mem_append] at hmem
          rcases harch : cfg.arch <;>
            rcases hmem with hmem | hmem <;>
            simp [layer_pre_trace, layer_post_trace, harch] at hmem <;>
            omega
    · intro hmem
      rw [forward_trace, if_pos hflag, List.append_nil] at hmem
      rw [List.mem_append, List.mem_append, mem_layers_trace] at hmem
      rcases hmem with (h1 | h1) | ⟨l, hl, hmem⟩
      · simp at h1
      · split at h1 <;> simp at h1
      · by_cases hle : l = cfg.n_layers - 1
        · rw [hle, if_pos ⟨rfl, hflag⟩] at hmem
          simp [layer_pre_trace] at hmem
        · rw [if_neg (fun hc => hle hc.1)] at hmem
          rw [List.mem_append] at hmem
          rcases harch : cfg.arch <;>
            rcases hmem with hmem | hmem <;>
            simp [layer_pre_trace, layer_post_trace, harch] at hmem <;>
            omega
    · intro hmem
      rw [forward_trace, if_pos hflag, List.append_nil] at hmem
      rw [List.mem_append, List.mem_append, mem_layers_trace] at hmem
      rcases hmem with (h1 | h1) | ⟨l, hl, hmem⟩
      · simp at h1
      · split at h1 <;> simp at h1
      · by_cases hle : l = cfg.n_layers - 1
        · rw [hle, if_pos ⟨rfl, hflag⟩] at hmem
          simp [layer_pre_trace] at hmem
        · rw [if_neg (fun hc => hle hc.1)] at hmem
          rw [List.mem_append] at hmem
          rcases harch : cfg.arch <;>
            rcases hmem with hmem | hmem <;>
            simp [layer_pre_trace, layer_post_trace, harch] at hmem <;>
            omega
    · intro hmem
      rw [forward_trace, if_pos hflag, List.append_nil] at hmem
      rw [List.mem_append, List.mem_append, mem_layers_trace] at hmem
      rcases hmem with (h1 | h1) | ⟨l, hl, hmem⟩
      · simp at h1
      · split at h1 <;> simp at h1
      · by_cases hle : l = cfg.n_layers - 1
        · rw [hle, if_pos ⟨rfl, hflag⟩] at hmem
          simp [layer_pre_trace] at hmem
        · rw [if_neg (fun hc => hle hc.1)] at hmem
          rw [List.mem_append] at hmem
          rcases harch : cfg.arch <;>
            rcases hmem with hmem | hmem <;>
            simp [layer_pre_trace, layer_post_trace, harch] at hmem <;>
            omega
    · intro hmem
      rw [forward_trace, if_pos hflag, List.append_nil] at hmem
      rw [List.mem_append, List.mem_append, mem_layers_trace] at hmem
      rcases hmem with (h1 | h1) | ⟨l, hl, hmem⟩
      · simp at h1
      · split at h1 <;> simp at h1
      · by_cases hle : l = cfg.n_layers - 1
        · rw [hle, if_pos ⟨rfl, hflag⟩] at hmem
          simp [layer_pre_trace] at hmem
        · rw [if_neg (fun hc => hle hc.1)] at hmem
          rw [List.mem_append] at hmem
          rcases harch : cfg.arch <;>
            rcases hmem with hmem | hmem <;>
            simp [layer_pre_trace, layer_post_trace, harch] at hmem <;>
            omega
    · intro hmem
      rw [forward_trace, if_pos hflag, List.append_nil] at hmem
      rw [List.mem_append, List.mem_append, mem_layers_trace] at hmem
      rcases hmem with (h1 | h1) | ⟨l, hl, hmem⟩
      · simp at h1
      · split at h1 <;> simp at h1
      · by_cases hle : l = cfg.n_layers - 1
        · rw [hle, if_pos ⟨rfl, hflag⟩] at hmem
          simp [layer_pre_trace] at hmem
        · rw [if_neg (fun hc => hle hc.1)] at hmem
          rw [List.mem_append] at hmem
          rcases harch : cfg.arch <;>
            rcases hmem with hmem | hmem <;>
            simp [layer_pre_trace, layer_post_trace, harch] at hmem <;>
            omega
    · intro hmem
      rw [forward_trace, if_pos hflag, List.append_nil] at hmem
      rw [List.mem_append, List.mem_append, mem_layers_trace] at hmem
      rcases hmem with (h1 | h1) | ⟨l, hl, hmem⟩
      · simp at h1
      · split at h1 <;> simp at h1
      · by_cases hle : l = cfg.n_layers - 1
        · rw [hle, if_pos ⟨rfl, hflag⟩] at hmem
          simp [layer_pre_trace] at hmem
        · rw [if_neg (fun hc => hle hc.1)] at hmem
          rw [List.mem_append] at hmem
          rcases harch : cfg.arch <;>
            rcases hmem with hmem | hmem <;>
            simp [layer_pre_trace, layer_post_trace, harch] at hmem <;>
            omega
    · intro hmem
      rw [forward_trace, if_pos hflag, List.append_nil] at hmem
      rw [List.mem_append, List.mem_append, mem_layers_trace] at hmem
      rcases hmem with (h1 | h1) | ⟨l, hl, hmem⟩
      · simp at h1
      · split at h1 <;> simp at h1
      · by_cases hle : l = cfg.n_layers - 1
        · rw [hle, if_pos ⟨rfl, hflag⟩] at hmem
          simp [layer_pre_trace] at hmem
        · rw [if_neg (fun hc => hle hc.1)] at hmem
          rw [List.mem_append] at hmem
          rcases harch : cfg.arch <;>
            rcases hmem with hmem | hmem <;>
            simp [layer_pre_trace, layer_post_trace, harch] at hmem <;>
            omega
    · intro hmem
      rw [forward_trace, if_pos hflag, List.append_nil] at hmem
      rw [List.mem_append, List.mem_append, mem_layers_trace] at hmem
      rcases hmem with (h1 | h1) | ⟨l, hl, hmem⟩
      · simp at h1
      · split at h1 <;> simp at h1
      · split at hmem <;> simp [layer_pre_trace, layer_post_trace] at hmem <;>
          rcases harch : cfg.arch <;> simp [harch] at hmem
    · intro hmem
      rw [forward_trace, if_pos hflag, List.append_nil] at hmem
      rw [List.mem_append, List.mem_append, mem_layers_trace] at hmem
      rcases hmem with (h1 | h1) | ⟨l, hl, hmem⟩
      · simp at h1
      · split at h1 <;> simp at h1
      · split at hmem <;> simp [layer_pre_trace, layer_post_trace] at hmem <;>
          rcases harch : cfg.arch <;> simp [harch] at hmem
    · rw [forward_coop]
      simp [hflag]
    · rw [coop_trace]
      refine List.mem_append.mpr (Or.inl (List.mem_append.mpr (Or.inr ?_)))
      exact List.mem_join.mpr ⟨coop_layer_trace cfg (cfg.n_layers - 1), hmemlast,
        by simp [coop_layer_trace]⟩
    · rw [coop_trace]
      refine List.mem_append.mpr (Or.inl (List.mem_append.mpr (Or.inr ?_)))
      exact List.mem_join.mpr ⟨coop_layer_trace cfg (cfg.n_layers - 1), hmemlast,
        by simp [coop_layer_trace]⟩
    · intro hmem
      rw [coop_trace, if_pos hflag, List.append_nil] at hmem
      rcases List.mem_append.mp hmem with h1 | h1
      · rcases List.mem_append.mp h1 with h2 | h2
        · simp at h2
        · split at h2 <;> simp at h2
      · obtain ⟨tr, htr, hmem2⟩ := List.mem_join.mp h1
        obtain ⟨l, -, hl⟩ := List.mem_map.mp htr
        rw [← hl, coop_layer_trace] at hmem2
        rcases List.mem_append.mp hmem2 with h3 | h3
        · rcases List.mem_append.mp h3 with h4 | h4
          · simp at h4
          · split at h4 <;> simp at h4
        · simp at h3
  · intro hflag
    constructor
    · rw [forward_multi]
      simp [hflag]
    · rw [forward_coop]
      simp [hflag]

/-- Witness for C5: one layer, flag set — both drivers return null, and the
cooperative trace still contains the last layer's FFN. -/
theorem c5_update_kv_only_witness :
    (forward_multi tinyConfig zeroWeights 0 0 1 zeroState).1 = none :=
  ((c5_update_kv_only tinyConfig zeroWeights 0 0 1 zeroState (by decide)).1 (by decide)).1

/-- Counterexample to C5 as stated: at a concrete one-layer configuration
with UPDATE_KV_ONLY set, the cooperative driver's launch trace still
contains the *last* layer's attention-score and FFN-down phases — the
computation does not stop after the QKV/KV-write. -/
theorem c5_update_kv_only_counterexample :
    Step.attnScore (tinyConfig.n_layers - 1) ∈ coop_trace tinyConfig 0 1 ∧
    Step.ffnDown (tinyConfig.n_layers - 1) ∈ coop_trace tinyConfig 0 1 := by
  constructor <;> decide

end Calm
